import Mathlib

/-!
# Tank controller: steering/throttle mixer with ramped pulse outputs

Shallow embedding of `src/main.cpp` and proofs of its specified properties.

Conventions of the embedding.

* The pin assignment (GPIO 5, 4, 14, 12 labelled D1, D2, D5, D6) is that of an
  ESP8266 board, where `unsigned int`, `long` and `unsigned long` are all 32 bits
  wide and `double` is IEEE-754 binary64.  Unsigned values are natural numbers
  below `UINT_MOD`, every unsigned operation that can leave the range is reduced
  modulo `UINT_MOD`; `long` values are integers, and every `long` operation is
  wrapped into the signed 32-bit range by `wrapLong` (signed overflow, undefined
  in C, is given its two's-complement machine behaviour), as is the conversion of
  an `unsigned int` to `long`.
* `double` values are modelled exactly: a finite binary64 number is a pair of an
  integer mantissa and a binary exponent, and every arithmetic operation rounds
  its exact result to 53 significant bits, ties to even.  The magnitudes that the
  program can produce stay far inside the normal exponent range of binary64, so
  overflow, subnormals, infinities and NaN do not occur and are not modelled.
* The conversion of a `double` to `unsigned int` truncates toward zero and is
  undefined in C when the truncated value is not representable; the embedding
  returns `none` there.
* `micros()` and `digitalRead()` are inputs: each call site takes the value read
  as an argument.  The two output pins are fields of the state.
-/

namespace TankController

/-! ## Machine arithmetic -/

/-- Number of values of the 32-bit `unsigned int` / `unsigned long`. -/
def UINT_MOD : Nat := 4294967296

/-- Unsigned subtraction `a - b` on 32-bit operands. -/
def usub (a b : Nat) : Nat := (a + UINT_MOD - b) % UINT_MOD

/-- Reduction of an integer into the range of the signed 32-bit `long`. -/
def wrapLong (x : Int) : Int := (x + 2147483648) % 4294967296 - 2147483648

/-! ## Configuration constants -/

def OUTPUT_PULSE_INTERVAL_MICROS : Nat := 20000
def MIXER_GAIN_1_PERCENT : Int := 100
def MIXER_GAIN_2_PERCENT : Int := 10
def MIXER_DIRECTION : Int := 1
def DEAD_ZONE : Nat := 2
def RAMP_LIMIT : Nat := 10
def DEFAULT_PULSE_WIDTH : Nat := 1500
def MAX_PULSE_WIDTH : Nat := 1900
def MIN_PULSE_WIDTH : Nat := 1100
def LEFT_MOTOR_TRIMMER : Int := 0
def RIGHT_MOTOR_TRIMMER : Int := 0

/-! ## Signal normalizer and rate limiter -/

/-- Source function `normalize_output_pulse_width`. -/
def normalize_output_pulse_width (pulse_width : Nat) : Nat :=
  if pulse_width > MAX_PULSE_WIDTH then MAX_PULSE_WIDTH
  else if pulse_width ≤ (DEFAULT_PULSE_WIDTH + DEAD_ZONE) % UINT_MOD
      ∧ pulse_width ≥ usub DEFAULT_PULSE_WIDTH DEAD_ZONE then DEFAULT_PULSE_WIDTH
  else pulse_width

/-- Source function `ramp`. -/
def ramp (setpoint current_value : Nat) : Nat :=
  if current_value ≥ setpoint then
    if usub current_value setpoint ≥ RAMP_LIMIT then usub current_value RAMP_LIMIT
    else setpoint
  else if current_value < setpoint then
    if usub setpoint current_value ≥ RAMP_LIMIT then (current_value + RAMP_LIMIT) % UINT_MOD
    else setpoint
  else setpoint

/-! ## Binary64 arithmetic -/

/-- Finite IEEE-754 binary64 number with value `m * 2 ^ e`. -/
structure Double where
  m : Int
  e : Int
deriving DecidableEq, Repr

/-- Number of low bits to drop so that `n` fits in 53 bits; `fuel` bounds the
recursion and the magnitude itself is always enough fuel. -/
def shiftCount : Nat → Nat → Nat
  | 0, _ => 0
  | fuel + 1, n => if n < 2 ^ 53 then 0 else shiftCount fuel (n / 2) + 1

/-- Round the magnitude `n * 2 ^ e` to 53 significant bits, ties to even. -/
def roundMag (n : Nat) (e : Int) : Nat × Int :=
  let k := shiftCount n n
  let q := n / 2 ^ k
  let r := n % 2 ^ k
  let q1 := if 2 ^ k < 2 * r ∨ (2 * r = 2 ^ k ∧ q % 2 = 1) then q + 1 else q
  if q1 = 2 ^ 53 then (2 ^ 52, e + k + 1) else (q1, e + k)

/-- The natural number to which `roundMag` rounds the magnitude `n`. -/
def roundNat (n : Nat) : Nat := (roundMag n 0).1 * 2 ^ (roundMag n 0).2.toNat

/-- Round the exact value `m * 2 ^ e` to the nearest binary64 number. -/
def Double.round (m e : Int) : Double :=
  if m = 0 then ⟨0, 0⟩
  else ⟨Int.sign m * (roundMag m.natAbs e).1, (roundMag m.natAbs e).2⟩

/-- Conversion of an integer to `double`. -/
def Double.ofInt (n : Int) : Double := Double.round n 0

/-- Product of two `double`s. -/
def Double.mul (x y : Double) : Double := Double.round (x.m * y.m) (x.e + y.e)

/-- Sum of two `double`s. -/
def Double.add (x y : Double) : Double :=
  Double.round (x.m * 2 ^ (x.e - min x.e y.e).toNat + y.m * 2 ^ (y.e - min x.e y.e).toNat)
    (min x.e y.e)

/-- Negation of a `double`. -/
def Double.neg (x : Double) : Double := ⟨-x.m, x.e⟩

/-- Difference of two `double`s. -/
def Double.sub (x y : Double) : Double := Double.add x (Double.neg y)

/-- Exact rational value of a `double`. -/
def Double.val (x : Double) : ℚ := (x.m : ℚ) * 2 ^ x.e

/-- Integral part of a `double`, truncated toward zero. -/
def Double.trunc (x : Double) : Int :=
  if 0 ≤ x.e then x.m * 2 ^ x.e.toNat else Int.tdiv x.m (2 ^ (-x.e).toNat)

/-- Conversion of a `double` to `unsigned int`: the truncated value when it is
representable, undefined otherwise. -/
def Double.toUInt (x : Double) : Option Nat :=
  if 0 ≤ x.trunc ∧ x.trunc < UINT_MOD then some x.trunc.toNat else none

/-- The literal `0.01`: the binary64 number nearest to one hundredth
(bit pattern `0x3F847AE147AE147B`). -/
def c001 : Double := ⟨5764607523034235, -59⟩

/-! ## Channel mixer -/

/-- Modelled from the spec: the Arduino library function `map` is not part of the
repository; it is taken as the integer formula
`(x - in_min) * (out_max - out_min) / (in_max - in_min) + out_min` on `long`
operands, with C division (truncation toward zero). -/
def map (x in_min in_max out_min out_max : Int) : Int :=
  wrapLong (wrapLong (Int.tdiv
    (wrapLong (wrapLong (x - in_min) * wrapLong (out_max - out_min)))
    (wrapLong (in_max - in_min))) + out_min)

/-- Local `multiplicator` of `mix_channels`: the steering gain in percent. -/
def multiplicator (throttle_pulse_width : Nat) : Int :=
  if throttle_pulse_width ≥ DEFAULT_PULSE_WIDTH then
    map (wrapLong throttle_pulse_width) DEFAULT_PULSE_WIDTH MAX_PULSE_WIDTH
      MIXER_GAIN_1_PERCENT MIXER_GAIN_2_PERCENT
  else
    map (wrapLong throttle_pulse_width) MIN_PULSE_WIDTH DEFAULT_PULSE_WIDTH
      MIXER_GAIN_2_PERCENT MIXER_GAIN_1_PERCENT

/-- Local `mix_value` of `mix_channels`. -/
def mix_value (throttle_pulse_width steering_pulse_width : Nat) : Double :=
  if steering_pulse_width ≥ DEFAULT_PULSE_WIDTH then
    Double.mul (Double.mul (Double.ofInt (multiplicator throttle_pulse_width)) c001)
      (Double.ofInt (usub steering_pulse_width DEFAULT_PULSE_WIDTH))
  else
    Double.mul
      (Double.mul (Double.ofInt (wrapLong (-1 * multiplicator throttle_pulse_width))) c001)
      (Double.ofInt (usub DEFAULT_PULSE_WIDTH steering_pulse_width))

/-- Argument of the normalizer for the left motor, before its conversion to
`unsigned int`. -/
def left_motor_raw (throttle_pulse_width steering_pulse_width : Nat) : Double :=
  Double.add
    (Double.add (Double.ofInt throttle_pulse_width)
      (Double.mul (Double.ofInt MIXER_DIRECTION)
        (mix_value throttle_pulse_width steering_pulse_width)))
    (Double.ofInt LEFT_MOTOR_TRIMMER)

/-- Argument of the normalizer for the right motor, before its conversion to
`unsigned int`. -/
def right_motor_raw (throttle_pulse_width steering_pulse_width : Nat) : Double :=
  Double.add
    (Double.sub (Double.ofInt throttle_pulse_width)
      (Double.mul (Double.ofInt MIXER_DIRECTION)
        (mix_value throttle_pulse_width steering_pulse_width)))
    (Double.ofInt RIGHT_MOTOR_TRIMMER)

/-- Local `left_motor_setpoint` of `mix_channels`. -/
def left_motor_setpoint (throttle_pulse_width steering_pulse_width : Nat) : Option Nat :=
  (left_motor_raw throttle_pulse_width steering_pulse_width).toUInt.map
    normalize_output_pulse_width

/-- Local `right_motor_setpoint` of `mix_channels`. -/
def right_motor_setpoint (throttle_pulse_width steering_pulse_width : Nat) : Option Nat :=
  (right_motor_raw throttle_pulse_width steering_pulse_width).toUInt.map
    normalize_output_pulse_width

/-! ## Controller state -/

/-- The global variables of the program, and the levels of the two output pins. -/
structure State where
  steering_pulse_start_micros : Nat
  throttle_pulse_start_micros : Nat
  left_motor_pulse_start_micros : Nat
  right_motor_pulse_start_micros : Nat
  steering_pulse_width : Nat
  throttle_pulse_width : Nat
  left_motor_pulse_width : Nat
  right_motor_pulse_width : Nat
  is_steering_pulse : Bool
  is_throttle_pulse : Bool
  is_left_motor_pulse : Bool
  is_right_motor_pulse : Bool
  output_pulse_start_micros : Nat
  left_motor_pin : Bool
  right_motor_pin : Bool
deriving DecidableEq, Repr

/-- Values of the globals at start-up; both output pins are low. -/
def State.init : State where
  steering_pulse_start_micros := 0
  throttle_pulse_start_micros := 0
  left_motor_pulse_start_micros := 0
  right_motor_pulse_start_micros := 0
  steering_pulse_width := DEFAULT_PULSE_WIDTH
  throttle_pulse_width := DEFAULT_PULSE_WIDTH
  left_motor_pulse_width := DEFAULT_PULSE_WIDTH
  right_motor_pulse_width := DEFAULT_PULSE_WIDTH
  is_steering_pulse := false
  is_throttle_pulse := false
  is_left_motor_pulse := false
  is_right_motor_pulse := false
  output_pulse_start_micros := 0
  left_motor_pin := false
  right_motor_pin := false

/-- Source function `mix_channels`. -/
def mix_channels (s : State) : Option State :=
  match left_motor_setpoint s.throttle_pulse_width s.steering_pulse_width,
    right_motor_setpoint s.throttle_pulse_width s.steering_pulse_width with
  | some l, some r =>
    some { s with
      left_motor_pulse_width := ramp l s.left_motor_pulse_width
      right_motor_pulse_width := ramp r s.right_motor_pulse_width }
  | _, _ => none

/-! ## Pulse capture and pulse scheduler -/

/-- The three variables that `read_pulse_width` receives by pointer. -/
structure Channel where
  start_micros : Nat
  pulse_width : Nat
  is_pulse : Bool
deriving DecidableEq, Repr

/-- Source function `read_pulse_width`; `current_micros` is the value returned by
`micros()` and `high` tells whether `digitalRead(pin) == HIGH`. -/
def read_pulse_width (current_micros : Nat) (high : Bool) (ch : Channel) : Channel :=
  if high then
    if !ch.is_pulse then { ch with is_pulse := true, start_micros := current_micros }
    else ch
  else
    if ch.is_pulse then
      { is_pulse := false
        pulse_width := usub current_micros ch.start_micros
        start_micros := current_micros }
    else ch

/-- Source function `read_input_signals`, with the clock reading and the pin
sample of each of its two `read_pulse_width` calls. -/
def read_input_signals (s : State) (steering_micros : Nat) (steering_high : Bool)
    (throttle_micros : Nat) (throttle_high : Bool) : State :=
  let st := read_pulse_width steering_micros steering_high
    ⟨s.steering_pulse_start_micros, s.steering_pulse_width, s.is_steering_pulse⟩
  let th := read_pulse_width throttle_micros throttle_high
    ⟨s.throttle_pulse_start_micros, s.throttle_pulse_width, s.is_throttle_pulse⟩
  { s with
    steering_pulse_start_micros := st.start_micros
    steering_pulse_width := st.pulse_width
    is_steering_pulse := st.is_pulse
    throttle_pulse_start_micros := th.start_micros
    throttle_pulse_width := th.pulse_width
    is_throttle_pulse := th.is_pulse }

/-- Source function `output_pulse_width`: the new level of the pin, given the
clock reading, the frame start, the emitted width and the present level. -/
def output_pulse_width (current_micros output_pulse_start_micros pulse_width : Nat)
    (pin : Bool) : Bool :=
  if usub current_micros output_pulse_start_micros ≥ pulse_width then false else pin

/-- Source function `output_signals`; `t0`, `t1`, `t2`, `t3` are the values of its
`micros()` calls in program order: the frame test, the new frame start (read only
when a frame starts), and the two `output_pulse_width` calls. -/
def output_signals (s : State) (t0 t1 t2 t3 : Nat) : Option State :=
  let framed : Option State :=
    if usub t0 s.output_pulse_start_micros ≥ OUTPUT_PULSE_INTERVAL_MICROS then
      (mix_channels s).map fun m =>
        { m with output_pulse_start_micros := t1, left_motor_pin := true,
                 right_motor_pin := true }
    else some s
  framed.map fun f =>
    { f with
      left_motor_pin :=
        output_pulse_width t2 f.output_pulse_start_micros f.left_motor_pulse_width
          f.left_motor_pin
      right_motor_pin :=
        output_pulse_width t3 f.output_pulse_start_micros f.right_motor_pulse_width
          f.right_motor_pin }

/-- Source function `loop`: one polling pass, with the clock readings and pin
samples of its calls in program order. -/
def loop (s : State) (steering_micros : Nat) (steering_high : Bool) (throttle_micros : Nat)
    (throttle_high : Bool) (t0 t1 t2 t3 : Nat) : Option State :=
  output_signals
    (read_input_signals s steering_micros steering_high throttle_micros throttle_high)
    t0 t1 t2 t3

/-- Successive `output_signals` calls, each with its four clock readings. -/
def output_signals_seq : State → List (Nat × Nat × Nat × Nat) → Option State
  | s, [] => some s
  | s, (t0, t1, t2, t3) :: rest =>
    (output_signals s t0 t1 t2 t3).bind fun f => output_signals_seq f rest

/-- States reachable from start-up by any sequence of `read_input_signals` and
`output_signals` calls, with any pin samples and clock readings. -/
inductive Reachable : State → Prop
  | init : Reachable State.init
  | read (s : State) (steering_micros : Nat) (steering_high : Bool) (throttle_micros : Nat)
      (throttle_high : Bool) :
      Reachable s →
      Reachable (read_input_signals s steering_micros steering_high throttle_micros
        throttle_high)
  | output (s f : State) (t0 t1 t2 t3 : Nat) :
      Reachable s → output_signals s t0 t1 t2 t3 = some f → Reachable f

/-! ## Rate limiter -/

/-- On in-range operands no unsigned operation of `ramp` wraps. -/
theorem ramp_eq (s c : Nat) (hs : s < UINT_MOD) (hc : c < UINT_MOD) :
    ramp s c = if s + 10 ≤ c then c - 10 else if c + 10 ≤ s then c + 10 else s := by
  unfold ramp usub RAMP_LIMIT
  unfold UINT_MOD at *
  split_ifs <;> omega

/-- The result of `ramp` is again an `unsigned int`. -/
theorem ramp_lt (s c : Nat) (hs : s < UINT_MOD) (hc : c < UINT_MOD) :
    ramp s c < UINT_MOD := by
  rw [ramp_eq s c hs hc]
  split_ifs <;> omega

/-- Closed form of the iterated ramp when climbing. -/
theorem ramp_iterate_up (s c : Nat) (hs : s < UINT_MOD) (hcs : c ≤ s) (n : Nat) :
    (ramp s)^[n] c = min (c + 10 * n) s := by
  induction n with
  | zero => simp [hcs]
  | succ k ih =>
    rw [Function.iterate_succ_apply', ih, ramp_eq s _ hs (by omega)]
    split_ifs <;> omega

/-- Closed form of the iterated ramp when descending. -/
theorem ramp_iterate_down (s c : Nat) (hc : c < UINT_MOD) (hsc : s ≤ c) (n : Nat) :
    (ramp s)^[n] c = max (c - 10 * n) s := by
  induction n with
  | zero => simp [hsc]
  | succ k ih =>
    rw [Function.iterate_succ_apply', ih, ramp_eq s _ (by omega) (by omega)]
    split_ifs <;> omega

/-- The ceiling of a tenth, as a natural-number quotient. -/
theorem ceil_div_ten (d : Nat) : ⌈(d : ℚ) / 10⌉₊ = (d + 9) / 10 := by
  apply le_antisymm
  · rw [Nat.ceil_le, div_le_iff₀ (by norm_num)]
    have h : d ≤ (d + 9) / 10 * 10 := by omega
    exact_mod_cast h
  · have h1 : (d : ℚ) / 10 ≤ (⌈(d : ℚ) / 10⌉₊ : ℚ) := Nat.le_ceil _
    rw [div_le_iff₀ (by norm_num)] at h1
    have h2 : d ≤ ⌈(d : ℚ) / 10⌉₊ * 10 := by exact_mod_cast h1
    omega

/-- Claim C1 (ramp bound): for all unsigned setpoint and current value, the
output of `ramp` differs from the current value by at most `RAMP_LIMIT`, and it
equals the setpoint whenever the two are at most `RAMP_LIMIT` apart. -/
theorem C1_ramp_bound (setpoint current : Nat)
    (hs : setpoint < UINT_MOD) (hc : current < UINT_MOD) :
    |(ramp setpoint current : Int) - (current : Int)| ≤ (RAMP_LIMIT : Int) ∧
    (|(setpoint : Int) - (current : Int)| ≤ (RAMP_LIMIT : Int) →
      ramp setpoint current = setpoint) := by
  rw [ramp_eq setpoint current hs hc]
  unfold RAMP_LIMIT
  constructor
  · rw [abs_le]
    split_ifs <;> omega
  · intro h
    rw [abs_le] at h
    split_ifs <;> omega

/-- Instance of C1 at setpoint 1700 and current value 1500. -/
theorem C1_ramp_bound_witness :
    |(ramp 1700 1500 : Int) - ((1500 : Nat) : Int)| ≤ (RAMP_LIMIT : Int) ∧
    (|((1700 : Nat) : Int) - ((1500 : Nat) : Int)| ≤ (RAMP_LIMIT : Int) →
      ramp 1700 1500 = 1700) :=
  C1_ramp_bound 1700 1500 (by decide) (by decide)

/-- The distance of two naturals, computed with truncated subtraction. -/
theorem abs_sub_cast (s c : Nat) : |(s : ℚ) - (c : ℚ)| = (((s - c) + (c - s) : Nat) : ℚ) := by
  rcases le_total c s with h | h
  · have hq : (c : ℚ) ≤ (s : ℚ) := Nat.cast_le.mpr h
    rw [abs_of_nonneg (by linarith)]
    have h0 : c - s = 0 := by omega
    rw [h0, add_zero, Nat.cast_sub h]
  · have hq : (s : ℚ) ≤ (c : ℚ) := Nat.cast_le.mpr h
    rw [abs_of_nonpos (by linarith)]
    have h0 : s - c = 0 := by omega
    rw [h0, zero_add, Nat.cast_sub h]
    ring

/-- Number of frames the ramp needs, as a natural-number quotient. -/
theorem ramp_frames_eq (s c : Nat) :
    ⌈|(s : ℚ) - (c : ℚ)| / (RAMP_LIMIT : ℚ)⌉₊ = ((s - c) + (c - s) + 9) / 10 := by
  rw [abs_sub_cast]
  unfold RAMP_LIMIT
  exact ceil_div_ten _

/-- Claim C2 (ramp convergence): iterating `c := ramp s c` reaches `s` after
exactly `ceil (|s - c| / RAMP_LIMIT)` applications and not earlier, stays at `s`
from then on, moves monotonically toward `s` without overshooting, and
`ramp s s = s`; from 1500 with setpoint 1700 the value is 1700 after 20 frames. -/
theorem C2_ramp_convergence (s c : Nat) (hs : s < UINT_MOD) (hc : c < UINT_MOD) :
    (ramp s)^[⌈|(s : ℚ) - (c : ℚ)| / (RAMP_LIMIT : ℚ)⌉₊] c = s ∧
    (∀ n, n < ⌈|(s : ℚ) - (c : ℚ)| / (RAMP_LIMIT : ℚ)⌉₊ → (ramp s)^[n] c ≠ s) ∧
    (∀ n, ⌈|(s : ℚ) - (c : ℚ)| / (RAMP_LIMIT : ℚ)⌉₊ ≤ n → (ramp s)^[n] c = s) ∧
    (∀ n, (c ≤ s → (ramp s)^[n] c ≤ (ramp s)^[n + 1] c ∧ (ramp s)^[n + 1] c ≤ s) ∧
      (s ≤ c → s ≤ (ramp s)^[n + 1] c ∧ (ramp s)^[n + 1] c ≤ (ramp s)^[n] c)) ∧
    ramp s s = s ∧
    (ramp 1700)^[20] 1500 = 1700 := by
  rw [ramp_frames_eq]
  have hss : ramp s s = s := by
    rw [ramp_eq s s hs hs]
    split_ifs <;> omega
  have hw : (ramp 1700)^[20] 1500 = 1700 := by
    rw [ramp_iterate_up 1700 1500 (by decide) (by decide)]
    decide
  refine ⟨?_, ?_, ?_, ?_, hss, hw⟩
  · rcases le_total c s with h | h
    · rw [ramp_iterate_up s c hs h]
      omega
    · rw [ramp_iterate_down s c hc h]
      omega
  · intro n hn
    rcases le_total c s with h | h
    · rw [ramp_iterate_up s c hs h]
      omega
    · rw [ramp_iterate_down s c hc h]
      omega
  · intro n hn
    rcases le_total c s with h | h
    · rw [ramp_iterate_up s c hs h]
      omega
    · rw [ramp_iterate_down s c hc h]
      omega
  · intro n
    constructor
    · intro h
      rw [ramp_iterate_up s c hs h, ramp_iterate_up s c hs h]
      omega
    · intro h
      rw [ramp_iterate_down s c hc h, ramp_iterate_down s c hc h]
      omega

/-- Instance of C2 at setpoint 1700 and starting value 1500. -/
theorem C2_ramp_convergence_witness :
    (ramp 1700)^[⌈|((1700 : Nat) : ℚ) - ((1500 : Nat) : ℚ)| / (RAMP_LIMIT : ℚ)⌉₊] 1500 = 1700 :=
  (C2_ramp_convergence 1700 1500 (by decide) (by decide)).1

/-! ## Signal normalizer -/

/-- The normalizer without the constant unsigned arithmetic. -/
theorem normalize_eq (w : Nat) :
    normalize_output_pulse_width w =
      if 1900 < w then 1900 else if 1498 ≤ w ∧ w ≤ 1502 then 1500 else w := by
  unfold normalize_output_pulse_width usub MAX_PULSE_WIDTH DEFAULT_PULSE_WIDTH DEAD_ZONE UINT_MOD
  split_ifs <;> omega

/-- Claim C3 (dead-zone snap): every raw width within 2 of 1500 is normalized to
exactly 1500. -/
theorem C3_dead_zone_snap (w : Nat) (hlo : 1498 ≤ w) (hhi : w ≤ 1502) :
    normalize_output_pulse_width w = 1500 := by
  rw [normalize_eq]
  split_ifs <;> omega

/-- Instance of C3 at raw width 1501. -/
theorem C3_dead_zone_snap_witness : normalize_output_pulse_width 1501 = 1500 :=
  C3_dead_zone_snap 1501 (by decide) (by decide)

/-- Claim C4 as stated fails above the maximum: the raw width 2000 is clamped
to 1900, which is neither 1500 nor the raw width itself. -/
theorem C4_counterexample :
    ¬ (normalize_output_pulse_width 2000 = 1500 ∨
      (normalize_output_pulse_width 2000 = 2000 ∧ 2000 ≤ 1900)) := by
  decide

/-- Claim C4, amended (upper clamp): every raw width above 1900 is normalized to
1900; every normalized width is the clamp value 1900 of a raw width above 1900,
or exactly 1500, or the unchanged raw width, which is then at most 1900; so no
normalized width exceeds 1900. -/
theorem C4_upper_clamp (w : Nat) :
    (1900 < w → normalize_output_pulse_width w = 1900) ∧
    ((1900 < w ∧ normalize_output_pulse_width w = 1900) ∨
      normalize_output_pulse_width w = 1500 ∨
      (normalize_output_pulse_width w = w ∧ w ≤ 1900)) ∧
    normalize_output_pulse_width w ≤ 1900 := by
  rw [normalize_eq]
  split_ifs <;> omega

/-- Instance of the amended C4 at raw width 2000. -/
theorem C4_upper_clamp_witness : normalize_output_pulse_width 2000 = 1900 :=
  (C4_upper_clamp 2000).1 (by decide)

/-- Claim C5 (pass-through, no lower clamp): every raw width below 1498, in
particular every width below the minimum 1100, is returned unchanged, and so is
every raw width above 1502 and at most 1900. -/
theorem C5_pass_through (w : Nat) :
    (w < 1498 → normalize_output_pulse_width w = w) ∧
    (w < MIN_PULSE_WIDTH → normalize_output_pulse_width w = w) ∧
    (1502 < w → w ≤ 1900 → normalize_output_pulse_width w = w) := by
  rw [normalize_eq]
  unfold MIN_PULSE_WIDTH
  refine ⟨fun h => ?_, fun h => ?_, fun h1 h2 => ?_⟩ <;> split_ifs <;> omega

/-- Instances of C5 at raw widths 1000 and 1700. -/
theorem C5_pass_through_witness :
    normalize_output_pulse_width 1000 = 1000 ∧ normalize_output_pulse_width 1700 = 1700 :=
  ⟨(C5_pass_through 1000).2.1 (by decide), (C5_pass_through 1700).2.2 (by decide) (by decide)⟩

/-! ## Binary64 rounding -/

/-- With the magnitude as fuel the shifted magnitude fits in 53 bits. -/
theorem shiftCount_fits (fuel n : Nat) (h : n ≤ fuel) :
    n / 2 ^ shiftCount fuel n < 2 ^ 53 := by
  induction fuel generalizing n with
  | zero =>
    have h0 : n = 0 := by omega
    subst h0
    simp [shiftCount]
  | succ f ih =>
    unfold shiftCount
    split_ifs with hn
    · simpa using hn
    · have h2 : n / 2 ≤ f := by omega
      have := ih (n / 2) h2
      rwa [Nat.div_div_eq_div_mul, ← pow_succ'] at this

/-- No more bits are dropped than needed: when a bit is dropped at all, the
shifted magnitude has its 53rd bit set. -/
theorem shiftCount_tight (fuel n : Nat) (hk : 0 < shiftCount fuel n) :
    2 ^ 52 ≤ n / 2 ^ shiftCount fuel n := by
  induction fuel generalizing n with
  | zero => simp [shiftCount] at hk
  | succ f ih =>
    unfold shiftCount at hk ⊢
    split_ifs at hk ⊢ with hn
    · omega
    · have hp : 2 ^ (shiftCount f (n / 2) + 1) = 2 * 2 ^ shiftCount f (n / 2) := pow_succ' _ _
      rw [hp, ← Nat.div_div_eq_div_mul]
      by_cases h0 : 0 < shiftCount f (n / 2)
      · exact ih (n / 2) h0
      · have hz : shiftCount f (n / 2) = 0 := by omega
        rw [hz]
        simp only [pow_zero, Nat.div_one]
        omega

/-- A magnitude that is a 53-bit number times a power of two loses only zero
bits. -/
theorem shiftCount_le (fuel n N j : Nat) (hn : n = N * 2 ^ j) (hN : N < 2 ^ 53) :
    shiftCount fuel n ≤ j := by
  induction fuel generalizing n j with
  | zero => simp [shiftCount]
  | succ f ih =>
    unfold shiftCount
    split_ifs with h
    · omega
    · cases j with
      | zero =>
        simp at hn
        omega
      | succ i =>
        have h2 : n / 2 = N * 2 ^ i := by
          rw [hn, pow_succ, ← mul_assoc, Nat.mul_div_cancel _ (by norm_num)]
        have := ih (n / 2) i h2
        omega

/-- The rounded magnitude in terms of the quotient and remainder of the shift. -/
theorem roundNat_eq (n : Nat) :
    roundNat n =
      (if 2 ^ shiftCount n n < 2 * (n % 2 ^ shiftCount n n) ∨
          (2 * (n % 2 ^ shiftCount n n) = 2 ^ shiftCount n n ∧
            n / 2 ^ shiftCount n n % 2 = 1)
        then n / 2 ^ shiftCount n n + 1 else n / 2 ^ shiftCount n n) *
      2 ^ shiftCount n n := by
  unfold roundNat roundMag
  simp only []
  split_ifs with h1 h2 h2
  · rw [h2]
    have : ((0 : Int) + (shiftCount n n : Int) + 1).toNat = shiftCount n n + 1 := by omega
    rw [this, pow_succ]
    ring
  · have : ((0 : Int) + (shiftCount n n : Int)).toNat = shiftCount n n := by omega
    rw [this]
  · rw [h2]
    have : ((0 : Int) + (shiftCount n n : Int) + 1).toNat = shiftCount n n + 1 := by omega
    rw [this, pow_succ]
    ring
  · have : ((0 : Int) + (shiftCount n n : Int)).toNat = shiftCount n n := by omega
    rw [this]

/-- The exponent argument of `roundMag` is only an offset. -/
theorem roundMag_shift (n : Nat) (e : Int) :
    (roundMag n e).1 = (roundMag n 0).1 ∧
      (roundMag n e).2 = e + ((roundMag n 0).2.toNat : Int) := by
  unfold roundMag
  simp only []
  split_ifs <;> constructor <;> simp <;> omega

/-- The rounded mantissa fits in 53 bits. -/
theorem roundMag_fst_lt (n : Nat) (e : Int) : (roundMag n e).1 < 2 ^ 53 := by
  have hfit := shiftCount_fits n n le_rfl
  unfold roundMag
  simp only []
  split_ifs with h1 h2 h2
  · norm_num
  · omega
  · norm_num
  · omega

/-- Rounding is exact on a 53-bit number times a power of two. -/
theorem roundNat_exact (n N j : Nat) (hn : n = N * 2 ^ j) (hN : N < 2 ^ 53) :
    roundNat n = n := by
  have hk := shiftCount_le n n N j hn hN
  have hdvd : 2 ^ shiftCount n n ∣ n := by
    have h := Dvd.dvd.mul_left (Nat.pow_dvd_pow 2 hk) N
    rwa [← hn] at h
  have hr : n % 2 ^ shiftCount n n = 0 := Nat.mod_eq_zero_of_dvd hdvd
  have hpos : 0 < 2 ^ shiftCount n n := by positivity
  rw [roundNat_eq, hr]
  rw [if_neg (by omega)]
  exact Nat.div_mul_cancel hdvd

/-- Rounding never goes below a representable number that the magnitude reaches. -/
theorem roundNat_ge (n N j : Nat) (hle : N * 2 ^ j ≤ n) (hN : N < 2 ^ 53) :
    N * 2 ^ j ≤ roundNat n := by
  have hpos : 0 < 2 ^ shiftCount n n := by positivity
  have hq : n / 2 ^ shiftCount n n * 2 ^ shiftCount n n ≤ roundNat n := by
    rw [roundNat_eq]
    apply Nat.mul_le_mul_right
    split_ifs <;> omega
  refine le_trans ?_ hq
  by_cases hkj : shiftCount n n ≤ j
  · have hdvd : 2 ^ shiftCount n n ∣ N * 2 ^ j :=
      Dvd.dvd.mul_left (Nat.pow_dvd_pow 2 hkj) N
    calc N * 2 ^ j = N * 2 ^ j / 2 ^ shiftCount n n * 2 ^ shiftCount n n :=
          (Nat.div_mul_cancel hdvd).symm
      _ ≤ n / 2 ^ shiftCount n n * 2 ^ shiftCount n n :=
          Nat.mul_le_mul_right _ (Nat.div_le_div_right hle)
  · have hk0 : 0 < shiftCount n n := by omega
    have ht := shiftCount_tight n n hk0
    have hjk : j + 1 ≤ shiftCount n n := by omega
    calc N * 2 ^ j ≤ 2 ^ 53 * 2 ^ j := Nat.mul_le_mul_right _ hN.le
      _ = 2 ^ 52 * 2 ^ (j + 1) := by rw [pow_succ]; ring
      _ ≤ 2 ^ 52 * 2 ^ shiftCount n n :=
          Nat.mul_le_mul_left _ (Nat.pow_le_pow_right (by norm_num) hjk)
      _ ≤ n / 2 ^ shiftCount n n * 2 ^ shiftCount n n := Nat.mul_le_mul_right _ ht

/-! ## Binary64 operations -/

theorem two_zpow_toNat (e : Int) (h : 0 ≤ e) : (2 : ℚ) ^ e = ((2 ^ e.toNat : Nat) : ℚ) := by
  lift e to Nat using h
  simp

theorem two_zpow_neg_toNat (e : Int) (h : e ≤ 0) :
    (2 : ℚ) ^ e * ((2 ^ (-e).toNat : Nat) : ℚ) = 1 := by
  have h1 : (((2 : Nat) ^ (-e).toNat : Nat) : ℚ) = (2 : ℚ) ^ (-e) := by
    rw [two_zpow_toNat (-e) (by omega)]
  rw [h1, ← zpow_add₀ (by norm_num)]
  simp

/-- Value of a rounded number: the sign times the rounded magnitude. -/
theorem round_val (m e : Int) :
    (Double.round m e).val = ((Int.sign m * (roundNat m.natAbs : Int) : Int) : ℚ) * 2 ^ e := by
  unfold Double.round
  split_ifs with h
  · subst h
    simp [Double.val]
  · obtain ⟨h1, h2⟩ := roundMag_shift m.natAbs e
    simp only [Double.val]
    rw [h2, h1, zpow_add₀ (by norm_num), zpow_natCast]
    unfold roundNat
    push_cast
    ring

/-- The mantissa of a rounded number fits in 53 bits. -/
theorem round_m_lt (m e : Int) : (Double.round m e).m.natAbs < 2 ^ 53 := by
  unfold Double.round
  split_ifs with h
  · simp
  · simp only [Int.natAbs_mul, Int.natAbs_ofNat]
    have h1 : m.sign.natAbs = 1 := by
      rw [Int.natAbs_sign_of_nonzero h]
    rw [h1, one_mul]
    exact roundMag_fst_lt _ _

/-- Rounding keeps a non-negative sign. -/
theorem round_m_nonneg (m e : Int) (h : 0 ≤ m) : 0 ≤ (Double.round m e).m := by
  unfold Double.round
  split_ifs with h0
  · simp
  · exact Int.mul_nonneg (Int.sign_nonneg.mpr h) (Int.ofNat_nonneg _)

/-- Rounding keeps a non-positive sign. -/
theorem round_m_nonpos (m e : Int) (h : m ≤ 0) : (Double.round m e).m ≤ 0 := by
  unfold Double.round
  split_ifs with h0
  · simp
  · have hneg : m < 0 := lt_of_le_of_ne h h0
    rw [Int.sign_eq_neg_one_of_neg hneg]
    simp

/-- Rounding is exact when the magnitude of the mantissa is a 53-bit number times
a power of two. -/
theorem round_val_exact (m e : Int) (N j : Nat) (hm : m.natAbs = N * 2 ^ j)
    (hN : N < 2 ^ 53) : (Double.round m e).val = (m : ℚ) * 2 ^ e := by
  rw [round_val, roundNat_exact m.natAbs N j hm hN, Int.sign_mul_natAbs]

/-- Rounding is exact on every value that is an integer below `2 ^ 53`. -/
theorem round_val_int (m e z : Int) (hz : z.natAbs < 2 ^ 53)
    (h : (m : ℚ) * 2 ^ e = (z : ℚ)) : (Double.round m e).val = (z : ℚ) := by
  rw [← h]
  rcases le_or_lt 0 e with he | he
  · rw [two_zpow_toNat e he] at h
    have hz2 : m * ((2 ^ e.toNat : Nat) : Int) = z := by exact_mod_cast h
    have hp : 0 < 2 ^ e.toNat := by positivity
    apply round_val_exact m e m.natAbs 0 (by simp)
    have : z.natAbs = m.natAbs * 2 ^ e.toNat := by
      rw [← hz2, Int.natAbs_mul, Int.natAbs_ofNat]
    have hle : m.natAbs ≤ m.natAbs * 2 ^ e.toNat := Nat.le_mul_of_pos_right _ hp
    omega
  · have h1 := two_zpow_neg_toNat e he.le
    have h2 : (m : ℚ) = (z : ℚ) * ((2 ^ (-e).toNat : Nat) : ℚ) := by
      rw [← h, mul_assoc, h1, mul_one]
    have h3 : m = z * ((2 ^ (-e).toNat : Nat) : Int) := by exact_mod_cast h2
    apply round_val_exact m e z.natAbs (-e).toNat _ hz
    rw [h3, Int.natAbs_mul, Int.natAbs_ofNat]

/-- Rounding a non-negative mantissa never goes below a representable number
that the mantissa reaches. -/
theorem round_val_ge (m e : Int) (N j : Nat) (hle : ((N * 2 ^ j : Nat) : Int) ≤ m)
    (hN : N < 2 ^ 53) : ((N * 2 ^ j : Nat) : ℚ) * 2 ^ e ≤ (Double.round m e).val := by
  have hm0 : 0 ≤ m := le_trans (Int.ofNat_nonneg _) hle
  have hnat : N * 2 ^ j ≤ m.natAbs := by omega
  have hr := roundNat_ge m.natAbs N j hnat hN
  rw [round_val]
  apply mul_le_mul_of_nonneg_right _ (by positivity)
  rcases hm0.eq_or_lt with h0 | hpos
  · subst h0
    simp at hnat ⊢
    simp [hnat]
  · rw [Int.sign_eq_one_of_pos hpos, one_mul]
    exact_mod_cast hr

/-- Integers below `2 ^ 53` convert to `double` unchanged. -/
theorem ofInt_eq (n : Int) (hn : n.natAbs < 2 ^ 53) : Double.ofInt n = ⟨n, 0⟩ := by
  unfold Double.ofInt Double.round
  split_ifs with h0
  · rw [h0]
  · have hpos : 0 < n.natAbs := Int.natAbs_pos.mpr h0
    have hk : shiftCount n.natAbs n.natAbs = 0 := by
      obtain ⟨f, hf⟩ : ∃ f, n.natAbs = f + 1 := ⟨n.natAbs - 1, by omega⟩
      rw [hf] at hn ⊢
      unfold shiftCount
      rw [if_pos hn]
    have hr : roundMag n.natAbs 0 = (n.natAbs, 0) := by
      unfold roundMag
      simp only [hk, pow_zero, Nat.mod_one, Nat.div_one]
      simp
      omega
    rw [hr]
    show (⟨n.sign * (n.natAbs : Int), 0⟩ : Double) = ⟨n, 0⟩
    rw [Int.sign_mul_natAbs]

theorem ofInt_val (n : Int) (hn : n.natAbs < 2 ^ 53) : (Double.ofInt n).val = (n : ℚ) := by
  rw [ofInt_eq n hn]
  simp [Double.val]

theorem neg_val (x : Double) : (Double.neg x).val = -x.val := by
  simp [Double.neg, Double.val]

/-- The product is the rounded exact product. -/
theorem mul_val_int (x y : Double) (z : Int) (hz : z.natAbs < 2 ^ 53)
    (h : x.val * y.val = (z : ℚ)) : (Double.mul x y).val = (z : ℚ) := by
  unfold Double.mul
  apply round_val_int _ _ z hz
  rw [← h]
  simp only [Double.val]
  rw [zpow_add₀ (by norm_num)]
  push_cast
  ring

/-- Exact value of the aligned sum of two mantissas. -/
theorem add_aligned_val (x y : Double) :
    ((x.m * 2 ^ (x.e - min x.e y.e).toNat + y.m * 2 ^ (y.e - min x.e y.e).toNat : Int) : ℚ)
      * 2 ^ (min x.e y.e) = x.val + y.val := by
  have hx : (2 : ℚ) ^ (x.e - min x.e y.e).toNat * 2 ^ (min x.e y.e) = 2 ^ x.e := by
    rw [← zpow_natCast, ← zpow_add₀ (by norm_num)]
    congr 1
    omega
  have hy : (2 : ℚ) ^ (y.e - min x.e y.e).toNat * 2 ^ (min x.e y.e) = 2 ^ y.e := by
    rw [← zpow_natCast, ← zpow_add₀ (by norm_num)]
    congr 1
    omega
  simp only [Double.val]
  push_cast
  rw [add_mul, mul_assoc, mul_assoc, hx, hy]

/-- The sum is the rounded exact sum. -/
theorem add_val_int (x y : Double) (z : Int) (hz : z.natAbs < 2 ^ 53)
    (h : x.val + y.val = (z : ℚ)) : (Double.add x y).val = (z : ℚ) := by
  unfold Double.add
  apply round_val_int _ _ z hz
  rw [add_aligned_val, h]

/-- The difference is the rounded exact difference. -/
theorem sub_val_int (x y : Double) (z : Int) (hz : z.natAbs < 2 ^ 53)
    (h : x.val - y.val = (z : ℚ)) : (Double.sub x y).val = (z : ℚ) := by
  unfold Double.sub
  apply add_val_int _ _ z hz
  rw [neg_val, ← h]
  ring

/-- Conversion to `unsigned int` of a `double` holding a representable integer. -/
theorem toUInt_of_val (x : Double) (n : Nat) (hn : n < UINT_MOD) (h : x.val = (n : ℚ)) :
    x.toUInt = some n := by
  have ht : x.trunc = (n : Int) := by
    unfold Double.trunc
    simp only [Double.val] at h
    split_ifs with he
    · rw [two_zpow_toNat x.e he] at h
      exact_mod_cast h
    · have h1 := two_zpow_neg_toNat x.e (by omega)
      have h2 : (x.m : ℚ) = (n : ℚ) * ((2 ^ (-x.e).toNat : Nat) : ℚ) := by
        rw [← h, mul_assoc, h1, mul_one]
      have h3 : x.m = (n : Int) * ((2 ^ (-x.e).toNat : Nat) : Int) := by exact_mod_cast h2
      rw [h3]
      push_cast
      rw [Int.mul_tdiv_cancel]
      positivity
  unfold Double.toUInt
  rw [ht]
  simp [hn]

/-- Adding a non-negative `double` to a converted unsigned value does not go
below that value. -/
theorem add_ofInt_ge (t : Nat) (y : Double) (ht : t < 2 ^ 53) (hy : 0 ≤ y.m) :
    (t : ℚ) ≤ (Double.add (Double.ofInt t) y).val := by
  rw [ofInt_eq t (by simpa using ht)]
  unfold Double.add
  simp only []
  have hle : ((t * 2 ^ ((0 : Int) - min 0 y.e).toNat : Nat) : Int) ≤
      (t : Int) * 2 ^ ((0 : Int) - min 0 y.e).toNat + y.m * 2 ^ (y.e - min 0 y.e).toNat := by
    push_cast
    have : 0 ≤ y.m * 2 ^ (y.e - min 0 y.e).toNat := by positivity
    linarith
  have h := round_val_ge _ (min 0 y.e) t ((0 : Int) - min 0 y.e).toNat hle ht
  refine le_trans (le_of_eq ?_) h
  push_cast
  rw [mul_assoc, ← zpow_natCast, ← zpow_add₀ (by norm_num)]
  have : (((0 : Int) - min 0 y.e).toNat : Int) + min 0 y.e = 0 := by omega
  rw [this]
  simp

/-- Adding the `double` zero to a binary64 number leaves its value unchanged. -/
theorem add_zero_val (x : Double) (hx : x.m.natAbs < 2 ^ 53) :
    (Double.add x (Double.ofInt 0)).val = x.val := by
  rw [ofInt_eq 0 (by simp)]
  unfold Double.add
  simp only [zero_mul, add_zero]
  rw [round_val_exact _ _ x.m.natAbs (x.e - min x.e 0).toNat _ hx]
  · have h := add_aligned_val x ⟨0, 0⟩
    simp only [zero_mul, add_zero] at h
    rw [h]
    simp [Double.val]
  · rw [Int.natAbs_mul, Int.natAbs_pow]
    simp

/-- Multiplying a binary64 number by the `double` one leaves it unchanged in
value. -/
theorem one_mul_val (x : Double) (hx : x.m.natAbs < 2 ^ 53) :
    (Double.mul (Double.ofInt 1) x).val = x.val := by
  rw [ofInt_eq 1 (by simp)]
  unfold Double.mul
  simp only [one_mul, zero_add]
  rw [round_val_exact _ _ x.m.natAbs 0 (by simp) hx]
  rfl

/-! ## Rounding error -/

/-- Rounding moves a magnitude by at most `2 ^ (-53)` of itself. -/
theorem roundNat_err (n : Nat) :
    2 ^ 53 * (roundNat n - n) ≤ n ∧ 2 ^ 53 * (n - roundNat n) ≤ n := by
  have hdm : 2 ^ shiftCount n n * (n / 2 ^ shiftCount n n) + n % 2 ^ shiftCount n n = n :=
    Nat.div_add_mod n _
  have hr : n % 2 ^ shiftCount n n < 2 ^ shiftCount n n := Nat.mod_lt _ (by positivity)
  rw [roundNat_eq]
  by_cases hk : shiftCount n n = 0
  · rw [hk] at hdm ⊢
    simp only [pow_zero, Nat.mod_one, Nat.div_one, mul_one] at hdm ⊢
    simp
  · have ht := shiftCount_tight n n (by omega)
    have hq : 2 ^ 52 * 2 ^ shiftCount n n ≤ n / 2 ^ shiftCount n n * 2 ^ shiftCount n n :=
      Nat.mul_le_mul_right _ ht
    rw [mul_comm] at hdm
    generalize 2 ^ shiftCount n n = P at *
    generalize hX : n / P * P = X at *
    split_ifs with hc
    · rw [add_mul, hX, one_mul]
      omega
    · rw [hX]
      omega

/-- The rounding error of a magnitude, over the rationals. -/
theorem roundNat_err_rat (n : Nat) :
    |(roundNat n : ℚ) - (n : ℚ)| ≤ (n : ℚ) / 2 ^ 53 := by
  obtain ⟨h1, h2⟩ := roundNat_err n
  generalize roundNat n = R at *
  have h3 : (2 ^ 53 : Int) * ((R : Int) - (n : Int)) ≤ (n : Int) := by omega
  have h4 : (2 ^ 53 : Int) * ((n : Int) - (R : Int)) ≤ (n : Int) := by omega
  have h5 : (2 ^ 53 : ℚ) * ((R : ℚ) - (n : ℚ)) ≤ (n : ℚ) := by exact_mod_cast h3
  have h6 : (2 ^ 53 : ℚ) * ((n : ℚ) - (R : ℚ)) ≤ (n : ℚ) := by exact_mod_cast h4
  rw [abs_le, le_div_iff₀ (by positivity)]
  constructor <;> linarith

/-- Rounding moves a value by at most `2 ^ (-53)` of its magnitude. -/
theorem round_err (m e : Int) :
    |(Double.round m e).val - (m : ℚ) * 2 ^ e| ≤ |(m : ℚ) * 2 ^ e| / 2 ^ 53 := by
  have hpow : (0 : ℚ) < 2 ^ e := by positivity
  rw [round_val]
  rcases lt_trichotomy m 0 with h | h | h
  · obtain ⟨n, hn⟩ : ∃ n : Nat, m = -(n : Int) := ⟨m.natAbs, by omega⟩
    have hna : m.natAbs = n := by omega
    have herr := roundNat_err_rat n
    rw [Int.sign_eq_neg_one_of_neg h, hna, hn]
    push_cast
    have e1 : -1 * (roundNat n : ℚ) * 2 ^ e - -(n : ℚ) * 2 ^ e =
        -(((roundNat n : ℚ) - (n : ℚ)) * 2 ^ e) := by ring
    have hl : |-(((roundNat n : ℚ) - (n : ℚ)) * 2 ^ e)| =
        |(roundNat n : ℚ) - (n : ℚ)| * 2 ^ e := by
      rw [abs_neg, abs_mul, abs_of_pos hpow]
    have hr : |-(n : ℚ) * 2 ^ e| / 2 ^ 53 = (n : ℚ) / 2 ^ 53 * 2 ^ e := by
      rw [abs_mul, abs_neg, abs_of_pos hpow, abs_of_nonneg (Nat.cast_nonneg n)]
      ring
    rw [e1, hl, hr]
    exact mul_le_mul_of_nonneg_right herr hpow.le
  · subst h
    simp
  · obtain ⟨n, hn⟩ : ∃ n : Nat, m = (n : Int) := ⟨m.natAbs, by omega⟩
    have hna : m.natAbs = n := by omega
    have herr := roundNat_err_rat n
    rw [Int.sign_eq_one_of_pos h, hna, hn]
    push_cast
    have e1 : 1 * (roundNat n : ℚ) * 2 ^ e - (n : ℚ) * 2 ^ e =
        ((roundNat n : ℚ) - (n : ℚ)) * 2 ^ e := by ring
    have hl : |((roundNat n : ℚ) - (n : ℚ)) * 2 ^ e| =
        |(roundNat n : ℚ) - (n : ℚ)| * 2 ^ e := by
      rw [abs_mul, abs_of_pos hpow]
    have hr : |(n : ℚ) * 2 ^ e| / 2 ^ 53 = (n : ℚ) / 2 ^ 53 * 2 ^ e := by
      rw [abs_mul, abs_of_pos hpow, abs_of_nonneg (Nat.cast_nonneg n)]
      ring
    rw [e1, hl, hr]
    exact mul_le_mul_of_nonneg_right herr hpow.le

/-- The computed product is within `2 ^ (-53)` of the exact product, relatively. -/
theorem mul_err (x y : Double) :
    |(Double.mul x y).val - x.val * y.val| ≤ |x.val * y.val| / 2 ^ 53 := by
  have h := round_err (x.m * y.m) (x.e + y.e)
  have hv : ((x.m * y.m : Int) : ℚ) * 2 ^ (x.e + y.e) = x.val * y.val := by
    simp only [Double.val]
    rw [zpow_add₀ (by norm_num)]
    push_cast
    ring
  rw [hv] at h
  exact h

/-- Two successive roundings of a product of three factors. -/
theorem two_step_err (a d P M u : ℚ) (hu : 0 ≤ u) (h1 : |P - a| ≤ u * |a|)
    (h2 : |M - P * d| ≤ u * |P * d|) : |M - a * d| ≤ (2 * u + u ^ 2) * |a * d| := by
  have hP : |P| ≤ (1 + u) * |a| := by
    have : |P| ≤ |P - a| + |a| := by
      have := abs_add (P - a) a
      simpa using this
    linarith
  have hd : 0 ≤ |d| := abs_nonneg d
  have h3 : |P * d - a * d| ≤ u * |a| * |d| := by
    rw [← sub_mul, abs_mul]
    exact mul_le_mul_of_nonneg_right h1 hd
  have h4 : |P * d| ≤ (1 + u) * |a| * |d| := by
    rw [abs_mul]
    exact mul_le_mul_of_nonneg_right hP hd
  have h5 : |M - a * d| ≤ |M - P * d| + |P * d - a * d| := by
    have := abs_add (M - P * d) (P * d - a * d)
    simpa using this
  have h6 : u * |P * d| ≤ u * ((1 + u) * |a| * |d|) := mul_le_mul_of_nonneg_left h4 hu
  rw [abs_mul a d]
  nlinarith

/-! ## Channel mixer -/

/-- Values inside the signed 32-bit range are not changed by the wrap. -/
theorem wrapLong_id (x : Int) (h1 : -2147483648 ≤ x) (h2 : x < 2147483648) :
    wrapLong x = x := by
  unfold wrapLong
  omega

/-- The wrap always lands in the signed 32-bit range. -/
theorem wrapLong_range (x : Int) : -2147483648 ≤ wrapLong x ∧ wrapLong x < 2147483648 := by
  unfold wrapLong
  omega

/-- The gain inside the operating range, without wrap and with the usual
integer quotient. -/
theorem multiplicator_eq (t : Nat) (h1 : 1100 ≤ t) (h2 : t ≤ 1900) :
    multiplicator t =
      if 1500 ≤ t then 100 - (90 * ((t : Int) - 1500)) / 400
      else 10 + (90 * ((t : Int) - 1100)) / 400 := by
  unfold multiplicator map DEFAULT_PULSE_WIDTH MAX_PULSE_WIDTH MIN_PULSE_WIDTH
    MIXER_GAIN_1_PERCENT MIXER_GAIN_2_PERCENT
  have ht : wrapLong (t : Int) = (t : Int) := wrapLong_id _ (by omega) (by omega)
  rw [ht]
  split_ifs with h
  · have e1 : wrapLong ((t : Int) - (1500 : Nat)) = (t : Int) - 1500 :=
      wrapLong_id _ (by push_cast; omega) (by push_cast; omega)
    have e2 : wrapLong ((10 : Int) - 100) = -90 := by decide
    have e3 : wrapLong (((1900 : Nat) : Int) - ((1500 : Nat) : Int)) = 400 := by decide
    have e4 : wrapLong (((t : Int) - 1500) * -90) = -(90 * ((t : Int) - 1500)) := by
      rw [wrapLong_id _ (by omega) (by omega)]
      ring
    have e5 : Int.tdiv (-(90 * ((t : Int) - 1500))) 400 = -(90 * ((t : Int) - 1500) / 400) := by
      rw [Int.neg_tdiv, Int.tdiv_eq_ediv (by omega) (by norm_num)]
    have e6 : wrapLong (-(90 * ((t : Int) - 1500) / 400)) = -(90 * ((t : Int) - 1500) / 400) :=
      wrapLong_id _ (by omega) (by omega)
    have e7 : wrapLong (-(90 * ((t : Int) - 1500) / 400) + 100) =
        -(90 * ((t : Int) - 1500) / 400) + 100 := wrapLong_id _ (by omega) (by omega)
    rw [e1, e2, e3, e4, e5, e6, e7]
    omega
  · have e1 : wrapLong ((t : Int) - (1100 : Nat)) = (t : Int) - 1100 :=
      wrapLong_id _ (by push_cast; omega) (by push_cast; omega)
    have e2 : wrapLong ((100 : Int) - 10) = 90 := by decide
    have e3 : wrapLong (((1500 : Nat) : Int) - ((1100 : Nat) : Int)) = 400 := by decide
    have e4 : wrapLong (((t : Int) - 1100) * 90) = 90 * ((t : Int) - 1100) := by
      rw [wrapLong_id _ (by omega) (by omega)]
      ring
    have e5 : Int.tdiv (90 * ((t : Int) - 1100)) 400 = 90 * ((t : Int) - 1100) / 400 := by
      rw [Int.tdiv_eq_ediv (by omega) (by norm_num)]
    have e6 : wrapLong (90 * ((t : Int) - 1100) / 400) = 90 * ((t : Int) - 1100) / 400 :=
      wrapLong_id _ (by omega) (by omega)
    have e7 : wrapLong (90 * ((t : Int) - 1100) / 400 + 10) =
        90 * ((t : Int) - 1100) / 400 + 10 := wrapLong_id _ (by omega) (by omega)
    rw [e1, e2, e3, e4, e5, e6, e7]
    omega

/-- Inside the operating range the gain lies between the two configured gains. -/
theorem multiplicator_bounds (t : Nat) (h1 : 1100 ≤ t) (h2 : t ≤ 1900) :
    10 ≤ multiplicator t ∧ multiplicator t ≤ 100 := by
  rw [multiplicator_eq t h1 h2]
  split_ifs <;> omega

/-- The gain is a `long`. -/
theorem multiplicator_range (t : Nat) :
    -2147483648 ≤ multiplicator t ∧ multiplicator t < 2147483648 := by
  unfold multiplicator map
  split_ifs <;> exact wrapLong_range _

/-- Any product with the `double` zero is zero. -/
theorem mul_zero_eq (x : Double) : Double.mul x ⟨0, 0⟩ = ⟨0, 0⟩ := by
  simp [Double.mul, Double.round]

/-- With centred steering the mix value is the `double` zero. -/
theorem mix_value_center (t : Nat) : mix_value t 1500 = ⟨0, 0⟩ := by
  unfold mix_value
  rw [if_pos (by decide)]
  have h0 : Double.ofInt ((usub 1500 DEFAULT_PULSE_WIDTH : Nat) : Int) = ⟨0, 0⟩ := by decide
  rw [h0, mul_zero_eq]

/-- The mixer direction is the `double` one. -/
theorem direction_val : (Double.ofInt MIXER_DIRECTION).val = 1 := by
  rw [show MIXER_DIRECTION = 1 from rfl, ofInt_val 1 (by decide)]
  simp

/-- Both trims are the `double` zero. -/
theorem trimmer_val :
    (Double.ofInt LEFT_MOTOR_TRIMMER).val = 0 ∧ (Double.ofInt RIGHT_MOTOR_TRIMMER).val = 0 := by
  rw [show LEFT_MOTOR_TRIMMER = 0 from rfl, show RIGHT_MOTOR_TRIMMER = 0 from rfl,
    ofInt_val 0 (by decide)]
  simp

/-- When the mix value is an integer `z` of moderate size, the arguments of the
normalizer are exactly `throttle + z` and `throttle - z`. -/
theorem raw_val_of_mix_int (t s : Nat) (z : Int) (ht : t < UINT_MOD)
    (hz : z.natAbs < 2 ^ 52) (hmix : (mix_value t s).val = (z : ℚ)) :
    (left_motor_raw t s).val = (((t : Int) + z : Int) : ℚ) ∧
    (right_motor_raw t s).val = (((t : Int) - z : Int) : ℚ) := by
  unfold UINT_MOD at ht
  have hd : (Double.mul (Double.ofInt MIXER_DIRECTION) (mix_value t s)).val = (z : ℚ) := by
    apply mul_val_int _ _ z (by omega)
    rw [direction_val, hmix, one_mul]
  have ht' : (Double.ofInt (t : Int)).val = ((t : Int) : ℚ) := ofInt_val _ (by omega)
  constructor
  · unfold left_motor_raw
    apply add_val_int _ _ _ (by omega)
    rw [trimmer_val.1, add_zero]
    apply add_val_int _ _ _ (by omega)
    rw [ht', hd]
    push_cast
    ring
  · unfold right_motor_raw
    apply add_val_int _ _ _ (by omega)
    rw [trimmer_val.2, add_zero]
    apply sub_val_int _ _ _ (by omega)
    rw [ht', hd]
    push_cast
    ring

/-- When the mix value is an integer `z` and both sums are representable
unsigned values, the setpoints are the normalized sums. -/
theorem setpoints_of_mix_int (t s : Nat) (z : Int) (l r : Nat) (ht : t < UINT_MOD)
    (hz : z.natAbs < 2 ^ 52) (hmix : (mix_value t s).val = (z : ℚ))
    (hl : (t : Int) + z = (l : Int)) (hr : (t : Int) - z = (r : Int))
    (hlu : l < UINT_MOD) (hru : r < UINT_MOD) :
    left_motor_setpoint t s = some (normalize_output_pulse_width l) ∧
    right_motor_setpoint t s = some (normalize_output_pulse_width r) := by
  obtain ⟨h1, h2⟩ := raw_val_of_mix_int t s z ht hz hmix
  rw [hl] at h1
  rw [hr] at h2
  unfold left_motor_setpoint right_motor_setpoint
  rw [toUInt_of_val _ l hlu (by exact_mod_cast h1), toUInt_of_val _ r hru (by exact_mod_cast h2)]
  simp

/-- Claim C6 (mixer neutrality): for every throttle width, when the steering
width is exactly 1500 the mix value is 0 and both setpoints computed by
`mix_channels` are the normalized throttle width, hence equal; `mix_channels`
then ramps both emitted widths toward that common setpoint.  Throttle 1700 with
steering 1500 gives both setpoints 1700. -/
theorem C6_mixer_neutrality (t : Nat) (ht : t < UINT_MOD) :
    (mix_value t 1500).val = 0 ∧
    left_motor_setpoint t 1500 = some (normalize_output_pulse_width t) ∧
    right_motor_setpoint t 1500 = some (normalize_output_pulse_width t) ∧
    left_motor_setpoint t 1500 = right_motor_setpoint t 1500 ∧
    (∀ st : State, st.throttle_pulse_width = t → st.steering_pulse_width = 1500 →
      mix_channels st = some { st with
        left_motor_pulse_width :=
          ramp (normalize_output_pulse_width t) st.left_motor_pulse_width
        right_motor_pulse_width :=
          ramp (normalize_output_pulse_width t) st.right_motor_pulse_width }) ∧
    left_motor_setpoint 1700 1500 = some 1700 ∧
    right_motor_setpoint 1700 1500 = some 1700 := by
  have hmix : (mix_value t 1500).val = ((0 : Int) : ℚ) := by
    rw [mix_value_center]
    simp [Double.val]
  obtain ⟨hl, hr⟩ := setpoints_of_mix_int t 1500 0 t t ht (by norm_num) hmix
    (by simp) (by simp) ht ht
  refine ⟨by simpa using hmix, hl, hr, by rw [hl, hr], ?_, by decide, by decide⟩
  intro st h1 h2
  unfold mix_channels
  rw [h1, h2, hl, hr]

/-- Instance of C6 at throttle 1700. -/
theorem C6_mixer_neutrality_witness :
    left_motor_setpoint 1700 1500 = some (normalize_output_pulse_width 1700) ∧
    right_motor_setpoint 1700 1500 = some (normalize_output_pulse_width 1700) :=
  ⟨(C6_mixer_neutrality 1700 (by decide)).2.1, (C6_mixer_neutrality 1700 (by decide)).2.2.1⟩

/-! ## Mix value -/

/-- The literal `0.01` exceeds one hundredth by `12 / (100 * 2 ^ 59)`, which is
less than half a unit in its last place. -/
theorem c001_val : c001.val = 1 / 100 + 12 / (100 * 2 ^ 59) := by
  norm_num [c001, Double.val]

/-- Quotient by 400 of a `long`. -/
theorem tdiv_400_bounds (x : Int) (h1 : -2147483648 ≤ x) (h2 : x < 2147483648) :
    -5368709 ≤ Int.tdiv x 400 ∧ Int.tdiv x 400 ≤ 5368709 := by
  rcases le_or_lt 0 x with h | h
  · rw [Int.tdiv_eq_ediv h (by norm_num)]
    omega
  · have hx : x = -(-x) := by ring
    rw [hx, Int.neg_tdiv, Int.tdiv_eq_ediv (by omega) (by norm_num)]
    omega

/-- The gain is far from the ends of the `long` range for every throttle width. -/
theorem multiplicator_small (t : Nat) :
    -5368809 ≤ multiplicator t ∧ multiplicator t ≤ 5368809 := by
  have e3 : wrapLong (((1900 : Nat) : Int) - ((1500 : Nat) : Int)) = 400 := by decide
  have e4 : wrapLong (((1500 : Nat) : Int) - ((1100 : Nat) : Int)) = 400 := by decide
  unfold multiplicator map DEFAULT_PULSE_WIDTH MAX_PULSE_WIDTH MIN_PULSE_WIDTH
    MIXER_GAIN_1_PERCENT MIXER_GAIN_2_PERCENT
  split_ifs with h
  · rw [e3]
    generalize wrapLong (wrapLong (t : Int) - ((1500 : Nat) : Int)) *
      wrapLong ((10 : Int) - 100) = X
    obtain ⟨a, b⟩ := wrapLong_range X
    obtain ⟨c, d⟩ := tdiv_400_bounds (wrapLong X) a b
    rw [wrapLong_id (Int.tdiv (wrapLong X) 400) (by omega) (by omega)]
    rw [wrapLong_id _ (by omega) (by omega)]
    omega
  · rw [e4]
    generalize wrapLong (wrapLong (t : Int) - ((1100 : Nat) : Int)) *
      wrapLong ((100 : Int) - 10) = X
    obtain ⟨a, b⟩ := wrapLong_range X
    obtain ⟨c, d⟩ := tdiv_400_bounds (wrapLong X) a b
    rw [wrapLong_id (Int.tdiv (wrapLong X) 400) (by omega) (by omega)]
    rw [wrapLong_id _ (by omega) (by omega)]
    omega

/-- The doubly rounded product `(g * 0.01) * d` is within `2 ^ (-51)`, relatively,
of the exact `g * d / 100`. -/
theorem mix_core_close (g : Int) (d : Nat) (hg : g.natAbs < 2 ^ 53) (hd : d < 2 ^ 53) :
    |(Double.mul (Double.mul (Double.ofInt g) c001) (Double.ofInt (d : Int))).val
        - (g : ℚ) * (d : ℚ) / 100| ≤ |(g : ℚ) * (d : ℚ) / 100| / 2 ^ 51 := by
  have hgv : (Double.ofInt g).val = (g : ℚ) := ofInt_val g hg
  have hdv : (Double.ofInt (d : Int)).val = (d : ℚ) := by
    rw [ofInt_val _ (by omega)]
    simp
  have h1 := mul_err (Double.ofInt g) c001
  have h2 := mul_err (Double.mul (Double.ofInt g) c001) (Double.ofInt (d : Int))
  rw [hgv] at h1
  rw [hdv] at h2
  generalize (Double.mul (Double.mul (Double.ofInt g) c001) (Double.ofInt (d : Int))).val = M at *
  generalize (Double.mul (Double.ofInt g) c001).val = P at *
  have h3 := two_step_err ((g : ℚ) * c001.val) (d : ℚ) P M (1 / 2 ^ 53) (by positivity)
    (by rw [one_div_mul_eq_div]; exact h1) (by rw [one_div_mul_eq_div]; exact h2)
  rw [c001_val] at h3
  have hsplit : M - (g : ℚ) * (d : ℚ) / 100 =
      (M - (g : ℚ) * (1 / 100 + 12 / (100 * 2 ^ 59)) * (d : ℚ)) +
        (g : ℚ) * (d : ℚ) * (12 / (100 * 2 ^ 59)) := by ring
  have habs1 : |(g : ℚ) * (1 / 100 + 12 / (100 * 2 ^ 59)) * (d : ℚ)| =
      |(g : ℚ) * (d : ℚ)| * (1 / 100 + 12 / (100 * 2 ^ 59)) := by
    rw [show (g : ℚ) * (1 / 100 + 12 / (100 * 2 ^ 59)) * (d : ℚ) =
      (g : ℚ) * (d : ℚ) * (1 / 100 + 12 / (100 * 2 ^ 59)) by ring, abs_mul,
      abs_of_pos (by norm_num : (0 : ℚ) < 1 / 100 + 12 / (100 * 2 ^ 59))]
  have habs2 : |(g : ℚ) * (d : ℚ) * (12 / (100 * 2 ^ 59))| =
      |(g : ℚ) * (d : ℚ)| * (12 / (100 * 2 ^ 59)) := by
    rw [abs_mul, abs_of_pos (by norm_num : (0 : ℚ) < 12 / (100 * 2 ^ 59))]
  have habs3 : |(g : ℚ) * (d : ℚ) / 100| = |(g : ℚ) * (d : ℚ)| / 100 := by
    rw [abs_div, abs_of_pos (by norm_num : (0 : ℚ) < 100)]
  rw [habs1] at h3
  rw [hsplit, habs3]
  refine le_trans (abs_add _ _) ?_
  rw [habs2]
  have hG : 0 ≤ |(g : ℚ) * (d : ℚ)| := abs_nonneg _
  generalize |(g : ℚ) * (d : ℚ)| = G at *
  have hK : (2 * (1 / 2 ^ 53) + (1 / 2 ^ 53) ^ 2) * (1 / 100 + 12 / (100 * 2 ^ 59))
      + 12 / (100 * 2 ^ 59) ≤ (1 : ℚ) / 100 / 2 ^ 51 := by norm_num
  have := mul_le_mul_of_nonneg_left hK hG
  calc |M - (g : ℚ) * (1 / 100 + 12 / (100 * 2 ^ 59)) * (d : ℚ)| + G * (12 / (100 * 2 ^ 59))
      ≤ (2 * (1 / 2 ^ 53) + (1 / 2 ^ 53) ^ 2) * (G * (1 / 100 + 12 / (100 * 2 ^ 59)))
          + G * (12 / (100 * 2 ^ 59)) := by linarith
    _ = G * ((2 * (1 / 2 ^ 53) + (1 / 2 ^ 53) ^ 2) * (1 / 100 + 12 / (100 * 2 ^ 59))
          + 12 / (100 * 2 ^ 59)) := by ring
    _ ≤ G * (1 / 100 / 2 ^ 51) := this
    _ = G / 100 / 2 ^ 51 := by ring

/-! ## Claims about the channel mixer -/

/-- Claim C7 (gain tapering at the configured points): the gain computed with
the Arduino `map` formula is 100 at throttle 1500 and 10 at throttle 1100 and at
throttle 1900; with steering 1900 the mix value is 400 at throttle 1500 and 40 at
throttle 1900. -/
theorem C7_gain_tapering :
    multiplicator 1500 = 100 ∧ multiplicator 1100 = 10 ∧ multiplicator 1900 = 10 ∧
    multiplicator 1500 = Int.tdiv ((1500 - 1500) * (10 - 100)) (1900 - 1500) + 100 ∧
    multiplicator 1100 = Int.tdiv ((1100 - 1100) * (100 - 10)) (1500 - 1100) + 10 ∧
    multiplicator 1900 = Int.tdiv ((1900 - 1500) * (10 - 100)) (1900 - 1500) + 100 ∧
    (mix_value 1500 1900).val = 400 ∧ (mix_value 1900 1900).val = 40 := by
  have h1 : mix_value 1500 1900 = ⟨7036874417766400, -44⟩ := by decide
  have h2 : mix_value 1900 1900 = ⟨5629499534213120, -47⟩ := by decide
  refine ⟨by decide, by decide, by decide, by decide, by decide, by decide, ?_, ?_⟩
  · rw [h1]
    norm_num [Double.val]
  · rw [h2]
    norm_num [Double.val]

/-- Claim C8 as stated fails: at throttle 2000 the gain is extrapolated to -12. -/
theorem C8_counterexample :
    ¬ (10 ≤ multiplicator 2000 ∧ multiplicator 2000 ≤ 100) := by
  decide

/-- Claim C8, amended: for every throttle width inside the operating range
1100 to 1900 the gain stays within 10 and 100; outside that range `map`
extrapolates, giving -12 at throttle 2000 and at throttle 1000. -/
theorem C8_gain_range (t : Nat) (h1 : 1100 ≤ t) (h2 : t ≤ 1900) :
    (10 ≤ multiplicator t ∧ multiplicator t ≤ 100) ∧
    multiplicator 2000 = -12 ∧ multiplicator 1000 = -12 :=
  ⟨multiplicator_bounds t h1 h2, by decide, by decide⟩

/-- Instance of the amended C8 at throttle 1700. -/
theorem C8_gain_range_witness : 10 ≤ multiplicator 1700 ∧ multiplicator 1700 ≤ 100 :=
  (C8_gain_range 1700 (by decide) (by decide)).1


/-- The mix value agrees with the exact `gain / 100 * (steering - 1500)` up to the
two binary64 roundings of the product. -/
theorem mix_value_close (t s : Nat) (hs : s < UINT_MOD) :
    |(mix_value t s).val - (multiplicator t : ℚ) * ((s : ℚ) - 1500) / 100| ≤
      |(multiplicator t : ℚ) * ((s : ℚ) - 1500) / 100| / 2 ^ 51 := by
  obtain ⟨g1, g2⟩ := multiplicator_small t
  unfold mix_value
  split_ifs with h
  · have hu : usub s DEFAULT_PULSE_WIDTH = s - 1500 := by
      unfold usub UINT_MOD DEFAULT_PULSE_WIDTH at *
      omega
    have hc : ((s - 1500 : Nat) : ℚ) = (s : ℚ) - 1500 := by
      unfold DEFAULT_PULSE_WIDTH at h
      rw [Nat.cast_sub h]
      simp
    have := mix_core_close (multiplicator t) (s - 1500) (by omega)
      (by unfold UINT_MOD at hs; omega)
    rw [hc] at this
    rw [hu]
    exact this
  · have hu : usub DEFAULT_PULSE_WIDTH s = 1500 - s := by
      unfold usub UINT_MOD DEFAULT_PULSE_WIDTH at *
      omega
    have hc : ((1500 - s : Nat) : ℚ) = 1500 - (s : ℚ) := by
      unfold DEFAULT_PULSE_WIDTH at h
      rw [Nat.cast_sub (by omega)]
      simp
    have hw : wrapLong (-1 * multiplicator t) = -multiplicator t := by
      rw [wrapLong_id _ (by omega) (by omega)]
      ring
    have := mix_core_close (-multiplicator t) (1500 - s) (by omega) (by omega)
    rw [hc] at this
    rw [hu, hw]
    have e : ((-multiplicator t : Int) : ℚ) * (1500 - (s : ℚ)) / 100 =
        (multiplicator t : ℚ) * ((s : ℚ) - 1500) / 100 := by
      push_cast
      ring
    rw [e] at this
    exact this

/-- A `double` with a non-negative mantissa has a non-negative value. -/
theorem val_nonneg (x : Double) (h : 0 ≤ x.m) : 0 ≤ x.val := by
  unfold Double.val
  have : (0 : ℚ) ≤ (x.m : ℚ) := by exact_mod_cast h
  positivity

/-- A `double` with a non-positive mantissa has a non-positive value. -/
theorem val_nonpos (x : Double) (h : x.m ≤ 0) : x.val ≤ 0 := by
  unfold Double.val
  have h1 : (x.m : ℚ) ≤ 0 := by exact_mod_cast h
  have h2 : (0 : ℚ) < 2 ^ x.e := by positivity
  exact mul_nonpos_of_nonpos_of_nonneg h1 h2.le

/-- With a non-negative gain and steering at or above centre the mantissa of the
mix value is non-negative. -/
theorem mix_value_m_nonneg (t s : Nat) (hg : 0 ≤ multiplicator t) (h : 1500 ≤ s) :
    0 ≤ (mix_value t s).m := by
  unfold mix_value
  rw [if_pos (by unfold DEFAULT_PULSE_WIDTH; omega)]
  apply round_m_nonneg
  apply Int.mul_nonneg
  · apply round_m_nonneg
    apply Int.mul_nonneg
    · exact round_m_nonneg _ _ hg
    · decide
  · exact round_m_nonneg _ _ (Int.ofNat_nonneg _)

/-- With a non-negative gain and steering below centre the mantissa of the mix
value is non-positive. -/
theorem mix_value_m_nonpos (t s : Nat) (hg : 0 ≤ multiplicator t) (h : s < 1500) :
    (mix_value t s).m ≤ 0 := by
  obtain ⟨g1, g2⟩ := multiplicator_small t
  unfold mix_value
  rw [if_neg (by unfold DEFAULT_PULSE_WIDTH; omega)]
  have hw : wrapLong (-1 * multiplicator t) ≤ 0 := by
    rw [wrapLong_id _ (by omega) (by omega)]
    omega
  apply round_m_nonpos
  apply Int.mul_nonpos_of_nonpos_of_nonneg
  · apply round_m_nonpos
    apply Int.mul_nonpos_of_nonpos_of_nonneg
    · exact round_m_nonpos _ _ hw
    · decide
  · exact round_m_nonneg _ _ (Int.ofNat_nonneg _)

/-- A non-negative mix value never lowers the argument of the left normalizer
below the throttle width. -/
theorem left_motor_raw_ge (t s : Nat) (ht : t < UINT_MOD) (hm : 0 ≤ (mix_value t s).m) :
    (t : ℚ) ≤ (left_motor_raw t s).val := by
  unfold left_motor_raw
  have hd : 0 ≤ (Double.mul (Double.ofInt MIXER_DIRECTION) (mix_value t s)).m := by
    apply round_m_nonneg
    apply Int.mul_nonneg _ hm
    exact round_m_nonneg _ _ (by decide)
  have h1 := add_ofInt_ge t _ (by unfold UINT_MOD at ht; omega) hd
  have hwf : (Double.add (Double.ofInt (t : Int))
      (Double.mul (Double.ofInt MIXER_DIRECTION) (mix_value t s))).m.natAbs < 2 ^ 53 :=
    round_m_lt _ _
  rw [show LEFT_MOTOR_TRIMMER = 0 from rfl, add_zero_val _ hwf]
  exact h1

/-- Claim C9 as stated fails.  At throttle 2000 the gain is -12, so with steering
1900, above centre, the mix value is -48 and the left raw setpoint 1952 lies
below the throttle width.  Moreover the binary64 product is not exactly
`gain / 100 * (s - 1500)`: at throttle 1700 (gain 55) and steering 1501 it is the
`double` nearest to 0.55, which is not 55/100. -/
theorem C9_counterexample :
    ¬ ((1500 : Nat) ≤ 1900 → 0 ≤ (mix_value 2000 1900).val) ∧
    (mix_value 2000 1900).val = -48 ∧
    (left_motor_raw 2000 1900).val = 1952 ∧
    multiplicator 1700 = 55 ∧
    (mix_value 1700 1501).val ≠ 55 / 100 * (1501 - 1500) := by
  have h : mix_value 2000 1900 = ⟨-6755399441055744, -47⟩ := by decide
  have h2 : mix_value 1700 1501 = ⟨4953959590107546, -53⟩ := by decide
  have hv : (mix_value 2000 1900).val = ((-48 : Int) : ℚ) := by
    rw [h]
    norm_num [Double.val]
  have hl := (raw_val_of_mix_int 2000 1900 (-48) (by decide) (by decide) hv).1
  refine ⟨?_, ?_, ?_, by decide, ?_⟩
  · rw [hv]
    norm_num
  · rw [hv]
    norm_num
  · rw [hl]
    norm_num
  · rw [h2]
    norm_num [Double.val]

/-- Claim C9, amended (mix sign follows steering when the gain is non-negative):
for all unsigned throttle and steering widths the mix value computed in
`mix_channels` equals `gain / 100 * (s - 1500)` up to binary64 rounding, with a
relative error of at most `2 ^ (-51)`.  Whenever
the gain is non-negative, which holds for every throttle width from 1100 to
1900, the mix value has the sign of the steering deviation: it is at least 0 when
`s` is at least 1500, where the left raw setpoint is then not below the throttle
width, and at most 0 when `s` is below 1500. -/
theorem C9_mix_sign (t s : Nat) (ht : t < UINT_MOD) (hs : s < UINT_MOD) :
    |(mix_value t s).val - (multiplicator t : ℚ) * ((s : ℚ) - 1500) / 100| ≤
      |(multiplicator t : ℚ) * ((s : ℚ) - 1500) / 100| / 2 ^ 51 ∧
    (0 ≤ multiplicator t →
      (1500 ≤ s → 0 ≤ (mix_value t s).val ∧ (t : ℚ) ≤ (left_motor_raw t s).val) ∧
      (s < 1500 → (mix_value t s).val ≤ 0)) ∧
    (1100 ≤ t → t ≤ 1900 → 0 ≤ multiplicator t) := by
  refine ⟨mix_value_close t s hs, fun hg => ⟨fun h => ?_, fun h => ?_⟩, fun h1 h2 => ?_⟩
  · have hm := mix_value_m_nonneg t s hg h
    exact ⟨val_nonneg _ hm, left_motor_raw_ge t s ht hm⟩
  · exact val_nonpos _ (mix_value_m_nonpos t s hg h)
  · have := multiplicator_bounds t h1 h2
    omega

/-- Instance of the amended C9 at throttle 1700 and steering 1900. -/
theorem C9_mix_sign_witness :
    0 ≤ (mix_value 1700 1900).val ∧ ((1700 : Nat) : ℚ) ≤ (left_motor_raw 1700 1900).val :=
  ((C9_mix_sign 1700 1900 (by decide) (by decide)).2.1
    ((C9_mix_sign 1700 1900 (by decide) (by decide)).2.2 (by decide) (by decide))).1 (by decide)

/-- At neutral throttle the gain factor is the `double` one, so the mix value is
exactly the steering deviation. -/
theorem mix_value_neutral (s : Nat) (hs : s < UINT_MOD) :
    (mix_value 1500 s).val = (((s : Int) - 1500 : Int) : ℚ) := by
  unfold UINT_MOD at hs
  unfold mix_value
  split_ifs with h
  · have hg : Double.mul (Double.ofInt (multiplicator 1500)) c001 = ⟨4503599627370496, -52⟩ := by
      decide
    have hu : ((usub s DEFAULT_PULSE_WIDTH : Nat) : Int) = (s : Int) - 1500 := by
      unfold usub UINT_MOD DEFAULT_PULSE_WIDTH at *
      omega
    rw [hg, hu]
    apply mul_val_int _ _ _ (by omega)
    rw [ofInt_val _ (by omega)]
    norm_num [Double.val]
  · have hg : Double.mul (Double.ofInt (wrapLong (-1 * multiplicator 1500))) c001 =
        ⟨-4503599627370496, -52⟩ := by
      decide
    have hu : ((usub DEFAULT_PULSE_WIDTH s : Nat) : Int) = 1500 - (s : Int) := by
      unfold usub UINT_MOD DEFAULT_PULSE_WIDTH at *
      omega
    rw [hg, hu]
    apply mul_val_int _ _ _ (by omega)
    rw [ofInt_val _ (by omega)]
    norm_num [Double.val]

/-- Claim C10 (turn at neutral throttle): with throttle 1500 the gain is 100
percent and, for every steering width `s` from 1100 to 1900, the mix value is
`s - 1500`, the left setpoint is the normalized `s` and the right setpoint is the
normalized `3000 - s`; steering 1100 gives mix value -400, left setpoint 1100 and
right setpoint 1900. -/
theorem C10_turn_at_neutral (s : Nat) (h1 : 1100 ≤ s) (h2 : s ≤ 1900) :
    multiplicator 1500 = 100 ∧
    (mix_value 1500 s).val = (s : ℚ) - 1500 ∧
    left_motor_setpoint 1500 s = some (normalize_output_pulse_width s) ∧
    right_motor_setpoint 1500 s = some (normalize_output_pulse_width (3000 - s)) ∧
    (mix_value 1500 1100).val = -400 ∧
    left_motor_setpoint 1500 1100 = some 1100 ∧
    right_motor_setpoint 1500 1100 = some 1900 := by
  have hs : s < UINT_MOD := by
    unfold UINT_MOD
    omega
  have hmix := mix_value_neutral s hs
  have hw := mix_value_neutral 1100 (by decide)
  obtain ⟨hl, hr⟩ := setpoints_of_mix_int 1500 s ((s : Int) - 1500) s (3000 - s)
    (by decide) (by omega) hmix (by omega) (by omega) hs (by unfold UINT_MOD; omega)
  refine ⟨by decide, ?_, hl, hr, ?_, by decide, by decide⟩
  · rw [hmix]
    push_cast
    ring
  · rw [hw]
    norm_num

/-- Instance of C10 at steering 1100. -/
theorem C10_turn_at_neutral_witness :
    left_motor_setpoint 1500 1100 = some (normalize_output_pulse_width 1100) ∧
    right_motor_setpoint 1500 1100 = some (normalize_output_pulse_width (3000 - 1100)) :=
  ⟨(C10_turn_at_neutral 1100 (by decide) (by decide)).2.2.1,
    (C10_turn_at_neutral 1100 (by decide) (by decide)).2.2.2.1⟩

/-! ## Pulse capture -/

/-- Unsigned subtraction of in-range operands in natural order does not wrap. -/
theorem usub_eq_sub (a b : Nat) (hb : b ≤ a) (ha : a < UINT_MOD) : usub a b = a - b := by
  unfold usub UINT_MOD at *
  omega

/-- The result of an unsigned subtraction is an `unsigned int`. -/
theorem usub_lt (a b : Nat) : usub a b < UINT_MOD := by
  unfold usub
  exact Nat.mod_lt _ (by decide)

/-- Claim C12 (capture, falling edge): for every channel state with the edge flag
set, a LOW sample at time `now` stores the unsigned difference `now - start` as
the measured width, sets the start timestamp to `now` and clears the flag; the
same holds for the steering and the throttle variables under
`read_input_signals`.  When the clock did not wrap between the two readings the
stored width is the plain difference. -/
theorem C12_falling_edge (ch : Channel) (now : Nat) (h : ch.is_pulse = true) :
    read_pulse_width now false ch =
      { start_micros := now, pulse_width := usub now ch.start_micros, is_pulse := false } ∧
    (ch.start_micros ≤ now → now < UINT_MOD →
      (read_pulse_width now false ch).pulse_width = now - ch.start_micros) ∧
    (∀ (s : State) (tm : Nat) (th : Bool), s.is_steering_pulse = true →
      (read_input_signals s now false tm th).steering_pulse_width =
          usub now s.steering_pulse_start_micros ∧
        (read_input_signals s now false tm th).steering_pulse_start_micros = now ∧
        (read_input_signals s now false tm th).is_steering_pulse = false) ∧
    (∀ (s : State) (tm : Nat) (sh : Bool), s.is_throttle_pulse = true →
      (read_input_signals s tm sh now false).throttle_pulse_width =
          usub now s.throttle_pulse_start_micros ∧
        (read_input_signals s tm sh now false).throttle_pulse_start_micros = now ∧
        (read_input_signals s tm sh now false).is_throttle_pulse = false) := by
  have h1 : read_pulse_width now false ch =
      { start_micros := now, pulse_width := usub now ch.start_micros, is_pulse := false } := by
    simp [read_pulse_width, h]
  refine ⟨h1, ?_, ?_, ?_⟩
  · intro hle hlt
    rw [h1]
    exact usub_eq_sub now ch.start_micros hle hlt
  · intro s tm th hs
    simp [read_input_signals, read_pulse_width, hs]
  · intro s tm sh hs
    simp [read_input_signals, read_pulse_width, hs]

/-- Instance of C12: a pulse that started at 1000 and ends at 2500 measures 1500. -/
theorem C12_falling_edge_witness :
    read_pulse_width 2500 false ⟨1000, 0, true⟩ =
      { start_micros := 2500, pulse_width := usub 2500 1000, is_pulse := false } :=
  (C12_falling_edge ⟨1000, 0, true⟩ 2500 rfl).1

/-- Claim C13 (capture, rising edge and frozen width): for every channel state
with the edge flag clear, a HIGH sample at time `now` sets the start timestamp to
`now`, sets the flag and leaves the measured width unchanged; and in any call the
measured width changes only if the flag was set before the call and the sample is
LOW. -/
theorem C13_rising_edge (ch : Channel) (now : Nat) (high : Bool) :
    (ch.is_pulse = false →
      read_pulse_width now true ch =
        { start_micros := now, pulse_width := ch.pulse_width, is_pulse := true }) ∧
    ((read_pulse_width now high ch).pulse_width ≠ ch.pulse_width →
      ch.is_pulse = true ∧ high = false) := by
  constructor
  · intro h
    simp [read_pulse_width, h]
  · intro h
    cases hh : high <;> cases hp : ch.is_pulse <;>
      simp [read_pulse_width, hh, hp] at h ⊢

/-- Instance of C13: a rising edge at time 700 on an idle channel. -/
theorem C13_rising_edge_witness :
    read_pulse_width 700 true ⟨0, 1500, false⟩ =
      { start_micros := 700, pulse_width := 1500, is_pulse := true } :=
  (C13_rising_edge ⟨0, 1500, false⟩ 700 true).1 rfl

/-- A poll leaves the edge flag equal to the sampled level. -/
theorem read_pulse_width_flag (ch : Channel) (now : Nat) (high : Bool) :
    (read_pulse_width now high ch).is_pulse = high := by
  cases hh : high <;> cases hp : ch.is_pulse <;> simp [read_pulse_width, hp]

/-- A poll whose sample equals the recorded level changes nothing. -/
theorem read_pulse_width_same (ch : Channel) (now : Nat) (high : Bool)
    (h : high = ch.is_pulse) : read_pulse_width now high ch = ch := by
  cases hh : high <;> cases hp : ch.is_pulse <;> simp_all [read_pulse_width]

/-- Any number of polls at the recorded level changes nothing. -/
theorem read_pulse_width_foldl_same (ts : List Nat) (ch : Channel) (high : Bool)
    (h : high = ch.is_pulse) :
    ts.foldl (fun c t => read_pulse_width t high c) ch = ch := by
  induction ts with
  | nil => rfl
  | cons t rest ih =>
    rw [List.foldl_cons, read_pulse_width_same ch t high h]
    exact ih

/-- Claim C14 (capture idempotence): a `read_pulse_width` call whose sample equals
the recorded level (HIGH while the flag is set, LOW while it is clear) leaves the
start timestamp, the measured width and the flag unchanged, at any time; so does
any number of such calls; hence from any channel state a run of polls at one pin
level, at any times, has the effect of its first poll alone. -/
theorem C14_capture_idempotence (ch : Channel) (now : Nat) (high : Bool) :
    (high = ch.is_pulse → read_pulse_width now high ch = ch) ∧
    (high = ch.is_pulse →
      ∀ ts : List Nat, ts.foldl (fun c t => read_pulse_width t high c) ch = ch) ∧
    (∀ ts : List Nat,
      (now :: ts).foldl (fun c t => read_pulse_width t high c) ch =
        read_pulse_width now high ch) := by
  refine ⟨read_pulse_width_same ch now high, fun h ts => ?_, fun ts => ?_⟩
  · exact read_pulse_width_foldl_same ts ch high h
  · rw [List.foldl_cons]
    exact read_pulse_width_foldl_same ts _ high (read_pulse_width_flag ch now high).symm

/-- Instance of C14: a HIGH sample during a pulse leaves the channel as it is. -/
theorem C14_capture_idempotence_witness :
    read_pulse_width 900 true ⟨700, 1500, true⟩ = ⟨700, 1500, true⟩ :=
  (C14_capture_idempotence ⟨700, 1500, true⟩ 900 true).1 rfl

/-! ## Pulse scheduler -/

/-- A defined `mix_channels` step ramps both emitted widths toward the two
setpoints and changes nothing else. -/
theorem mix_channels_eq_some (s m : State) (h : mix_channels s = some m) :
    ∃ l r, left_motor_setpoint s.throttle_pulse_width s.steering_pulse_width = some l ∧
      right_motor_setpoint s.throttle_pulse_width s.steering_pulse_width = some r ∧
      m = { s with
        left_motor_pulse_width := ramp l s.left_motor_pulse_width
        right_motor_pulse_width := ramp r s.right_motor_pulse_width } := by
  unfold mix_channels at h
  split at h
  · rename_i l r hl hr
    exact ⟨l, r, hl, hr, (Option.some.inj h).symm⟩
  · exact absurd h (by simp)

/-- Function `mix_channels` is defined as soon as both conversions to
`unsigned int` are. -/
theorem mix_channels_of_setpoints (s : State) (l r : Nat)
    (hl : left_motor_setpoint s.throttle_pulse_width s.steering_pulse_width = some l)
    (hr : right_motor_setpoint s.throttle_pulse_width s.steering_pulse_width = some r) :
    mix_channels s = some { s with
      left_motor_pulse_width := ramp l s.left_motor_pulse_width
      right_motor_pulse_width := ramp r s.right_motor_pulse_width } := by
  unfold mix_channels
  rw [hl, hr]

/-- Every left setpoint is a normalized width. -/
theorem left_motor_setpoint_le (t s l : Nat) (h : left_motor_setpoint t s = some l) :
    l ≤ 1900 := by
  unfold left_motor_setpoint at h
  rw [Option.map_eq_some'] at h
  obtain ⟨w, _, hw⟩ := h
  rw [← hw, normalize_eq]
  split_ifs <;> omega

/-- Every right setpoint is a normalized width. -/
theorem right_motor_setpoint_le (t s r : Nat) (h : right_motor_setpoint t s = some r) :
    r ≤ 1900 := by
  unfold right_motor_setpoint at h
  rw [Option.map_eq_some'] at h
  obtain ⟨w, _, hw⟩ := h
  rw [← hw, normalize_eq]
  split_ifs <;> omega

/-- Within a frame `output_signals` only lowers pins. -/
theorem output_signals_within (s : State) (t0 t1 t2 t3 : Nat)
    (h : usub t0 s.output_pulse_start_micros < OUTPUT_PULSE_INTERVAL_MICROS) :
    output_signals s t0 t1 t2 t3 = some { s with
      left_motor_pin :=
        output_pulse_width t2 s.output_pulse_start_micros s.left_motor_pulse_width
          s.left_motor_pin
      right_motor_pin :=
        output_pulse_width t3 s.output_pulse_start_micros s.right_motor_pulse_width
          s.right_motor_pin } := by
  unfold output_signals
  simp only []
  rw [if_neg (by omega)]
  rfl

/-- At a frame start `output_signals` mixes, records the second clock reading as
the frame start, raises both pins and then applies the two deassert tests. -/
theorem output_signals_frame (s : State) (t0 t1 t2 t3 : Nat)
    (h : usub t0 s.output_pulse_start_micros ≥ OUTPUT_PULSE_INTERVAL_MICROS) :
    output_signals s t0 t1 t2 t3 = (mix_channels s).map fun m =>
      { m with
        output_pulse_start_micros := t1
        left_motor_pin := output_pulse_width t2 t1 m.left_motor_pulse_width true
        right_motor_pin := output_pulse_width t3 t1 m.right_motor_pulse_width true } := by
  unfold output_signals
  simp only []
  rw [if_pos h]
  cases mix_channels s <;> rfl

/-! ## Clock wraparound -/

/-- The unsigned difference of two readings of the 32-bit counter is the true
elapsed time, provided that is below `2 ^ 32`. -/
theorem usub_mod (T0 T1 : Nat) (h01 : T0 ≤ T1) (hlt : T1 - T0 < UINT_MOD) :
    usub (T1 % UINT_MOD) (T0 % UINT_MOD) = T1 - T0 := by
  unfold usub UINT_MOD at *
  omega

/-- Claim C19 (clock wraparound): with the microsecond clock a 32-bit counter,
for true times `T0 ≤ T1` less than `2 ^ 32` apart the unsigned difference of the
two counter readings is the true elapsed time `T1 - T0`, even when the counter
wrapped in between.  So the width measured by `read_pulse_width` at a falling
edge is the true pulse length, the deassert test of `output_pulse_width` compares
the true elapsed time with the emitted width, and the frame test of
`output_signals` starts a frame exactly when the true elapsed time is at least
20000. -/
theorem C19_clock_wraparound (T0 T1 : Nat) (h01 : T0 ≤ T1) (hlt : T1 - T0 < UINT_MOD) :
    usub (T1 % UINT_MOD) (T0 % UINT_MOD) = T1 - T0 ∧
    (∀ w : Nat,
      (read_pulse_width (T1 % UINT_MOD) false ⟨T0 % UINT_MOD, w, true⟩).pulse_width
        = T1 - T0) ∧
    (∀ (width : Nat) (pin : Bool),
      output_pulse_width (T1 % UINT_MOD) (T0 % UINT_MOD) width pin =
        if width ≤ T1 - T0 then false else pin) ∧
    (∀ (s : State) (t1 t2 t3 : Nat), s.output_pulse_start_micros = T0 % UINT_MOD →
      (T1 - T0 < 20000 →
        ∃ f, output_signals s (T1 % UINT_MOD) t1 t2 t3 = some f ∧
          f.output_pulse_start_micros = s.output_pulse_start_micros ∧
          f.left_motor_pulse_width = s.left_motor_pulse_width ∧
          f.right_motor_pulse_width = s.right_motor_pulse_width) ∧
      (20000 ≤ T1 - T0 →
        output_signals s (T1 % UINT_MOD) t1 t2 t3 = (mix_channels s).map fun m =>
          { m with
            output_pulse_start_micros := t1
            left_motor_pin := output_pulse_width t2 t1 m.left_motor_pulse_width true
            right_motor_pin := output_pulse_width t3 t1 m.right_motor_pulse_width true })) := by
  have hu := usub_mod T0 T1 h01 hlt
  refine ⟨hu, fun w => ?_, fun width pin => ?_, fun s t1 t2 t3 hs => ⟨fun h => ?_, fun h => ?_⟩⟩
  · simp [read_pulse_width, hu]
  · unfold output_pulse_width
    rw [hu]
  · have hw := output_signals_within s (T1 % UINT_MOD) t1 t2 t3
      (by rw [hs, hu]; exact h)
    exact ⟨_, hw, rfl, rfl, rfl⟩
  · exact output_signals_frame s (T1 % UINT_MOD) t1 t2 t3 (by rw [hs, hu]; exact h)

/-- Instance of C19 across the wrap: a pulse that starts 296 microseconds before
the counter wraps and lasts 1500 microseconds is measured as 1500. -/
theorem C19_clock_wraparound_witness :
    usub (4294968500 % UINT_MOD) (4294967000 % UINT_MOD) = 4294968500 - 4294967000 ∧
    (4294968500 % UINT_MOD = 1204 ∧ 4294967000 % UINT_MOD = 4294967000) :=
  ⟨(C19_clock_wraparound 4294967000 4294968500 (by decide) (by decide)).1, by decide⟩

/-! ## Gain interpolation -/

/-- Claim C17 (gain is a linear interpolation inside the operating range): for
every throttle width from 1500 to 1900 the integer gain `map t 1500 1900 100 10`
differs by less than 1 from the exact `100 - 90 * (t - 1500) / 400`, and for every
throttle width from 1100 up to but not including 1500 the gain
`map t 1100 1500 10 100` differs by less than 1 from `10 + 90 * (t - 1100) / 400`;
the gain is exact where the division is exact, it is 55 at throttle 1700, and it
stays within 10 and 100 on the whole range from 1100 to 1900. -/
theorem C17_gain_interpolation (t : Nat) (h1 : 1100 ≤ t) (h2 : t ≤ 1900) :
    (1500 ≤ t →
      multiplicator t = map (t : Int) 1500 1900 100 10 ∧
      |(multiplicator t : ℚ) - (100 - 90 * ((t : ℚ) - 1500) / 400)| < 1 ∧
      ((400 : Int) ∣ 90 * ((t : Int) - 1500) →
        (multiplicator t : ℚ) = 100 - 90 * ((t : ℚ) - 1500) / 400)) ∧
    (t < 1500 →
      multiplicator t = map (t : Int) 1100 1500 10 100 ∧
      |(multiplicator t : ℚ) - (10 + 90 * ((t : ℚ) - 1100) / 400)| < 1 ∧
      ((400 : Int) ∣ 90 * ((t : Int) - 1100) →
        (multiplicator t : ℚ) = 10 + 90 * ((t : ℚ) - 1100) / 400)) ∧
    multiplicator 1700 = 55 ∧
    (10 ≤ multiplicator t ∧ multiplicator t ≤ 100) := by
  have hw : wrapLong (t : Int) = (t : Int) := wrapLong_id _ (by omega) (by omega)
  have hup : 1500 ≤ t → multiplicator t = 100 - (90 * ((t : Int) - 1500)) / 400 := by
    intro h
    rw [multiplicator_eq t h1 h2, if_pos h]
  have hdn : t < 1500 → multiplicator t = 10 + (90 * ((t : Int) - 1100)) / 400 := by
    intro h
    rw [multiplicator_eq t h1 h2, if_neg (Nat.not_le.mpr h)]
  refine ⟨fun h => ⟨?_, ?_, ?_⟩, fun h => ⟨?_, ?_, ?_⟩, by decide, multiplicator_bounds t h1 h2⟩
  · unfold multiplicator
    rw [if_pos (by unfold DEFAULT_PULSE_WIDTH; omega), hw]
    simp [DEFAULT_PULSE_WIDTH, MAX_PULSE_WIDTH, MIXER_GAIN_1_PERCENT, MIXER_GAIN_2_PERCENT]
  · have heq := hup h
    have hlo : 400 * (90 * ((t : Int) - 1500) / 400) ≤ 90 * ((t : Int) - 1500) := by omega
    have hhi : 90 * ((t : Int) - 1500) < 400 * (90 * ((t : Int) - 1500) / 400) + 400 := by omega
    generalize 90 * ((t : Int) - 1500) / 400 = q at *
    have hlo' : (400 : ℚ) * (q : ℚ) ≤ 90 * ((t : ℚ) - 1500) := by exact_mod_cast hlo
    have hhi' : 90 * ((t : ℚ) - 1500) < 400 * (q : ℚ) + 400 := by exact_mod_cast hhi
    rw [heq, abs_lt]
    push_cast
    constructor <;> linarith
  · intro hd
    have heq := hup h
    obtain ⟨k, hk⟩ := hd
    have hq : 90 * ((t : Int) - 1500) / 400 = k := by
      rw [hk, Int.mul_ediv_cancel_left _ (by norm_num)]
    rw [heq, hq]
    have hk' : 90 * ((t : ℚ) - 1500) = 400 * (k : ℚ) := by exact_mod_cast hk
    push_cast
    linear_combination (1 / 400 : ℚ) * hk'
  · unfold multiplicator
    rw [if_neg (by unfold DEFAULT_PULSE_WIDTH; omega), hw]
    simp [DEFAULT_PULSE_WIDTH, MIN_PULSE_WIDTH, MIXER_GAIN_1_PERCENT, MIXER_GAIN_2_PERCENT]
  · have heq := hdn h
    have hlo : 400 * (90 * ((t : Int) - 1100) / 400) ≤ 90 * ((t : Int) - 1100) := by omega
    have hhi : 90 * ((t : Int) - 1100) < 400 * (90 * ((t : Int) - 1100) / 400) + 400 := by omega
    generalize 90 * ((t : Int) - 1100) / 400 = q at *
    have hlo' : (400 : ℚ) * (q : ℚ) ≤ 90 * ((t : ℚ) - 1100) := by exact_mod_cast hlo
    have hhi' : 90 * ((t : ℚ) - 1100) < 400 * (q : ℚ) + 400 := by exact_mod_cast hhi
    rw [heq, abs_lt]
    push_cast
    constructor <;> linarith
  · intro hd
    have heq := hdn h
    obtain ⟨k, hk⟩ := hd
    have hq : 90 * ((t : Int) - 1100) / 400 = k := by
      rw [hk, Int.mul_ediv_cancel_left _ (by norm_num)]
    rw [heq, hq]
    have hk' : 90 * ((t : ℚ) - 1100) = 400 * (k : ℚ) := by exact_mod_cast hk
    push_cast
    linear_combination (-1 / 400 : ℚ) * hk'

/-- Instance of C17 at throttle 1700, where the division is exact. -/
theorem C17_gain_interpolation_witness :
    (multiplicator 1700 : ℚ) = 100 - 90 * (((1700 : Nat) : ℚ) - 1500) / 400 :=
  ((C17_gain_interpolation 1700 (by decide) (by decide)).1 (by decide)).2.2 ⟨45, by norm_num⟩

/-! ## Emitted widths stay below the maximum -/

/-- On in-range operands the result of `ramp` lies between the current value and
the setpoint. -/
theorem ramp_between (s c : Nat) (hs : s < UINT_MOD) (hc : c < UINT_MOD) :
    min c s ≤ ramp s c ∧ ramp s c ≤ max c s := by
  rw [ramp_eq s c hs hc]
  split_ifs <;> omega

/-- A `mix_channels` step keeps both emitted widths at or below 1900. -/
theorem mix_channels_le (s m : State) (h : mix_channels s = some m)
    (hl : s.left_motor_pulse_width ≤ 1900) (hr : s.right_motor_pulse_width ≤ 1900) :
    m.left_motor_pulse_width ≤ 1900 ∧ m.right_motor_pulse_width ≤ 1900 := by
  obtain ⟨l, r, h1, h2, rfl⟩ := mix_channels_eq_some s m h
  have hl' := left_motor_setpoint_le _ _ l h1
  have hr' := right_motor_setpoint_le _ _ r h2
  have b1 := ramp_between l s.left_motor_pulse_width (by unfold UINT_MOD; omega)
    (by unfold UINT_MOD; omega)
  have b2 := ramp_between r s.right_motor_pulse_width (by unfold UINT_MOD; omega)
    (by unfold UINT_MOD; omega)
  constructor
  · show ramp l s.left_motor_pulse_width ≤ 1900
    omega
  · show ramp r s.right_motor_pulse_width ≤ 1900
    omega

/-- An `output_signals` call keeps both emitted widths at or below 1900. -/
theorem output_signals_le (s f : State) (t0 t1 t2 t3 : Nat)
    (h : output_signals s t0 t1 t2 t3 = some f)
    (hl : s.left_motor_pulse_width ≤ 1900) (hr : s.right_motor_pulse_width ≤ 1900) :
    f.left_motor_pulse_width ≤ 1900 ∧ f.right_motor_pulse_width ≤ 1900 := by
  rcases lt_or_le (usub t0 s.output_pulse_start_micros) OUTPUT_PULSE_INTERVAL_MICROS with hlt | hge
  · rw [output_signals_within s t0 t1 t2 t3 hlt] at h
    have := Option.some.inj h
    subst this
    exact ⟨hl, hr⟩
  · rw [output_signals_frame s t0 t1 t2 t3 hge, Option.map_eq_some'] at h
    obtain ⟨m, hm, rfl⟩ := h
    exact mix_channels_le s m hm hl hr

/-- Both emitted widths are at most 1900 in every reachable state. -/
theorem reachable_le (st : State) (h : Reachable st) :
    st.left_motor_pulse_width ≤ 1900 ∧ st.right_motor_pulse_width ≤ 1900 := by
  induction h with
  | init => decide
  | read s a b c d _ ih => exact ih
  | output s f t0 t1 t2 t3 _ hf ih => exact output_signals_le s f t0 t1 t2 t3 hf ih.1 ih.2

/-- Claim C18 (emitted widths never exceed the maximum width): on unsigned
operands `ramp` returns a value between the current value and the setpoint,
inclusive; every setpoint is an output of `normalize_output_pulse_width` and so
at most 1900; therefore in every state reachable from the initial state, where
both emitted widths are 1500, by any sequence of `read_input_signals` and
`output_signals` calls with any pin samples and clock readings, both emitted
widths are at most 1900. -/
theorem C18_emitted_width_bound (st : State) (h : Reachable st) :
    (∀ s c : Nat, s < UINT_MOD → c < UINT_MOD → min c s ≤ ramp s c ∧ ramp s c ≤ max c s) ∧
    (∀ t s l : Nat, left_motor_setpoint t s = some l →
      (∃ w, l = normalize_output_pulse_width w) ∧ l ≤ 1900) ∧
    (∀ t s r : Nat, right_motor_setpoint t s = some r →
      (∃ w, r = normalize_output_pulse_width w) ∧ r ≤ 1900) ∧
    State.init.left_motor_pulse_width = 1500 ∧ State.init.right_motor_pulse_width = 1500 ∧
    st.left_motor_pulse_width ≤ 1900 ∧ st.right_motor_pulse_width ≤ 1900 := by
  refine ⟨ramp_between, fun t s l hl => ⟨?_, left_motor_setpoint_le t s l hl⟩,
    fun t s r hr => ⟨?_, right_motor_setpoint_le t s r hr⟩, rfl, rfl, reachable_le st h⟩
  · unfold left_motor_setpoint at hl
    rw [Option.map_eq_some'] at hl
    obtain ⟨w, _, hw⟩ := hl
    exact ⟨w, hw.symm⟩
  · unfold right_motor_setpoint at hr
    rw [Option.map_eq_some'] at hr
    obtain ⟨w, _, hw⟩ := hr
    exact ⟨w, hw.symm⟩

/-- Instance of C18: the state after the first frame start is reachable and has
both emitted widths at most 1900. -/
theorem C18_emitted_width_bound_witness :
    ({ State.init with
        output_pulse_start_micros := 20010
        left_motor_pin := true
        right_motor_pin := true } : State).left_motor_pulse_width ≤ 1900 :=
  (C18_emitted_width_bound _
    (Reachable.output State.init _ 20000 20010 20020 20030 Reachable.init
      (by decide))).2.2.2.2.2.1

/-! ## The mixer is defined on the nominal input range -/

/-- The computed sum is within `2 ^ (-53)` of the exact sum, relatively. -/
theorem add_err (x y : Double) :
    |(Double.add x y).val - (x.val + y.val)| ≤ |x.val + y.val| / 2 ^ 53 := by
  have h := round_err (x.m * 2 ^ (x.e - min x.e y.e).toNat + y.m * 2 ^ (y.e - min x.e y.e).toNat)
    (min x.e y.e)
  rw [add_aligned_val] at h
  exact h

/-- A `double` with a value from 0 up to but not including `2 ^ 32` converts to
`unsigned int`. -/
theorem toUInt_some_of_bounds (x : Double) (h0 : 0 ≤ x.val) (h1 : x.val < 4294967296) :
    ∃ n, x.toUInt = some n := by
  have hpow : (0 : ℚ) < 2 ^ x.e := by positivity
  have hm : 0 ≤ x.m := by
    by_contra hneg
    have hlt : (x.m : ℚ) < 0 := by exact_mod_cast (not_le.mp hneg)
    have : x.val < 0 := mul_neg_of_neg_of_pos hlt hpow
    linarith
  have ht : 0 ≤ x.trunc ∧ ((x.trunc : Int) : ℚ) ≤ x.val := by
    unfold Double.trunc
    split_ifs with he
    · constructor
      · positivity
      · simp only [Double.val]
        rw [two_zpow_toNat x.e he]
        push_cast
        exact le_refl _
    · have hk : (0 : Int) < 2 ^ (-x.e).toNat := by positivity
      rw [Int.tdiv_eq_ediv hm hk.le]
      constructor
      · exact Int.ediv_nonneg hm hk.le
      · have h1' := two_zpow_neg_toNat x.e (by omega)
        have hle : x.m / 2 ^ (-x.e).toNat * 2 ^ (-x.e).toNat ≤ x.m :=
          Int.ediv_mul_le _ (ne_of_gt hk)
        have hleq : ((x.m / 2 ^ (-x.e).toNat : Int) : ℚ) * ((2 ^ (-x.e).toNat : Nat) : ℚ)
            ≤ (x.m : ℚ) := by exact_mod_cast hle
        have hv : x.val * ((2 ^ (-x.e).toNat : Nat) : ℚ) = (x.m : ℚ) := by
          simp only [Double.val]
          rw [mul_assoc, h1', mul_one]
        have hpos : (0 : ℚ) < ((2 ^ (-x.e).toNat : Nat) : ℚ) := by positivity
        rw [← hv] at hleq
        exact le_of_mul_le_mul_right hleq hpos
  have hlt : x.trunc < UINT_MOD := by
    have : ((x.trunc : Int) : ℚ) < 4294967296 := lt_of_le_of_lt ht.2 h1
    unfold UINT_MOD
    exact_mod_cast this
  unfold Double.toUInt
  rw [if_pos ⟨ht.1, hlt⟩]
  exact ⟨_, rfl⟩

/-- The gain on the nominal input range from 1000 to 2000. -/
theorem multiplicator_bounds_wide (t : Nat) (h1 : 1000 ≤ t) (h2 : t ≤ 2000) :
    -12 ≤ multiplicator t ∧ multiplicator t ≤ 100 := by
  by_cases hin : 1100 ≤ t ∧ t ≤ 1900
  · have := multiplicator_bounds t hin.1 hin.2
    omega
  · unfold multiplicator map DEFAULT_PULSE_WIDTH MAX_PULSE_WIDTH MIN_PULSE_WIDTH
      MIXER_GAIN_1_PERCENT MIXER_GAIN_2_PERCENT
    have ht : wrapLong (t : Int) = (t : Int) := wrapLong_id _ (by omega) (by omega)
    rw [ht]
    split_ifs with h
    · have e1 : wrapLong ((t : Int) - (1500 : Nat)) = (t : Int) - 1500 :=
        wrapLong_id _ (by push_cast; omega) (by push_cast; omega)
      have e2 : wrapLong ((10 : Int) - 100) = -90 := by decide
      have e3 : wrapLong (((1900 : Nat) : Int) - ((1500 : Nat) : Int)) = 400 := by decide
      have e4 : wrapLong (((t : Int) - 1500) * -90) = -(90 * ((t : Int) - 1500)) := by
        rw [wrapLong_id _ (by omega) (by omega)]
        ring
      have e5 : Int.tdiv (-(90 * ((t : Int) - 1500))) 400 =
          -(90 * ((t : Int) - 1500) / 400) := by
        rw [Int.neg_tdiv, Int.tdiv_eq_ediv (by omega) (by norm_num)]
      have e6 : wrapLong (-(90 * ((t : Int) - 1500) / 400)) =
          -(90 * ((t : Int) - 1500) / 400) := wrapLong_id _ (by omega) (by omega)
      have e7 : wrapLong (-(90 * ((t : Int) - 1500) / 400) + 100) =
          -(90 * ((t : Int) - 1500) / 400) + 100 := wrapLong_id _ (by omega) (by omega)
      rw [e1, e2, e3, e4, e5, e6, e7]
      omega
    · have e1 : wrapLong ((t : Int) - (1100 : Nat)) = (t : Int) - 1100 :=
        wrapLong_id _ (by push_cast; omega) (by push_cast; omega)
      have e2 : wrapLong ((100 : Int) - 10) = 90 := by decide
      have e3 : wrapLong (((1500 : Nat) : Int) - ((1100 : Nat) : Int)) = 400 := by decide
      have e4 : wrapLong (((t : Int) - 1100) * 90) = -(90 * (1100 - (t : Int))) := by
        rw [wrapLong_id _ (by omega) (by omega)]
        ring
      have e5 : Int.tdiv (-(90 * (1100 - (t : Int)))) 400 =
          -(90 * (1100 - (t : Int)) / 400) := by
        rw [Int.neg_tdiv, Int.tdiv_eq_ediv (by omega) (by norm_num)]
      have e6 : wrapLong (-(90 * (1100 - (t : Int)) / 400)) =
          -(90 * (1100 - (t : Int)) / 400) := wrapLong_id _ (by omega) (by omega)
      have e7 : wrapLong (-(90 * (1100 - (t : Int)) / 400) + 10) =
          -(90 * (1100 - (t : Int)) / 400) + 10 := wrapLong_id _ (by omega) (by omega)
      rw [e1, e2, e3, e4, e5, e6, e7]
      omega

/-- On the nominal input range the mix value is below 501 in magnitude. -/
theorem mix_value_abs_le (t s : Nat) (ht1 : 1000 ≤ t) (ht2 : t ≤ 2000) (hs1 : 1000 ≤ s)
    (hs2 : s ≤ 2000) : |(mix_value t s).val| ≤ 501 := by
  obtain ⟨g1, g2⟩ := multiplicator_bounds_wide t ht1 ht2
  have hclose := mix_value_close t s (by unfold UINT_MOD; omega)
  have hg : |(multiplicator t : ℚ)| ≤ 100 := by
    rw [abs_le]
    constructor
    · have : (-12 : ℚ) ≤ (multiplicator t : ℚ) := by exact_mod_cast g1
      linarith
    · exact_mod_cast g2
  have hd : |(s : ℚ) - 1500| ≤ 500 := by
    have a : (1000 : ℚ) ≤ (s : ℚ) := by exact_mod_cast hs1
    have b : (s : ℚ) ≤ 2000 := by exact_mod_cast hs2
    rw [abs_le]
    constructor <;> linarith
  have hX : |(multiplicator t : ℚ) * ((s : ℚ) - 1500) / 100| ≤ 500 := by
    rw [abs_div, abs_mul, abs_of_pos (by norm_num : (0 : ℚ) < 100),
      div_le_iff₀ (by norm_num)]
    calc |(multiplicator t : ℚ)| * |(s : ℚ) - 1500| ≤ 100 * 500 :=
          mul_le_mul hg hd (abs_nonneg _) (by norm_num)
      _ = 500 * 100 := by norm_num
  generalize (multiplicator t : ℚ) * ((s : ℚ) - 1500) / 100 = X at *
  generalize (mix_value t s).val = M at *
  have h1 : |M| ≤ |M - X| + |X| := by
    have := abs_add (M - X) X
    simpa using this
  have h2 : |X| / 2 ^ 51 ≤ 1 := by
    rw [div_le_iff₀ (by positivity)]
    have : (500 : ℚ) ≤ 1 * 2 ^ 51 := by norm_num
    linarith
  linarith

/-- The mantissa of the mix value fits in 53 bits. -/
theorem mix_value_m_lt (t s : Nat) : (mix_value t s).m.natAbs < 2 ^ 53 := by
  unfold mix_value
  split_ifs <;> exact round_m_lt _ _

/-- The two arguments of the normalizer are the once-rounded sum and difference
of the throttle width and the mix value. -/
theorem raw_close (t s : Nat) (ht : t < UINT_MOD) :
    |(left_motor_raw t s).val - ((t : ℚ) + (mix_value t s).val)| ≤
      |(t : ℚ) + (mix_value t s).val| / 2 ^ 53 ∧
    |(right_motor_raw t s).val - ((t : ℚ) - (mix_value t s).val)| ≤
      |(t : ℚ) - (mix_value t s).val| / 2 ^ 53 := by
  have hd : (Double.mul (Double.ofInt MIXER_DIRECTION) (mix_value t s)).val =
      (mix_value t s).val := one_mul_val _ (mix_value_m_lt t s)
  have ht' : (Double.ofInt (t : Int)).val = (t : ℚ) := by
    rw [ofInt_val _ (by unfold UINT_MOD at ht; omega)]
    simp
  constructor
  · unfold left_motor_raw
    have hwf : (Double.add (Double.ofInt (t : Int))
        (Double.mul (Double.ofInt MIXER_DIRECTION) (mix_value t s))).m.natAbs < 2 ^ 53 :=
      round_m_lt _ _
    rw [show LEFT_MOTOR_TRIMMER = 0 from rfl, add_zero_val _ hwf]
    have h := add_err (Double.ofInt (t : Int))
      (Double.mul (Double.ofInt MIXER_DIRECTION) (mix_value t s))
    rw [ht', hd] at h
    exact h
  · unfold right_motor_raw
    have hwf : (Double.sub (Double.ofInt (t : Int))
        (Double.mul (Double.ofInt MIXER_DIRECTION) (mix_value t s))).m.natAbs < 2 ^ 53 :=
      round_m_lt _ _
    rw [show RIGHT_MOTOR_TRIMMER = 0 from rfl, add_zero_val _ hwf]
    unfold Double.sub
    have h := add_err (Double.ofInt (t : Int))
      (Double.neg (Double.mul (Double.ofInt MIXER_DIRECTION) (mix_value t s)))
    rw [ht', neg_val, hd, ← sub_eq_add_neg] at h
    exact h

/-- A once-rounded positive value of moderate size converts to `unsigned int`. -/
theorem toUInt_some_of_close (x : Double) (a : ℚ) (h0 : 1 ≤ a) (h1 : a ≤ 4000000000)
    (h : |x.val - a| ≤ |a| / 2 ^ 53) : ∃ n, x.toUInt = some n := by
  rw [abs_of_pos (by linarith : (0 : ℚ) < a), abs_le] at h
  have hsmall : a / 2 ^ 53 ≤ 1 / 2 := by
    rw [div_le_iff₀ (by positivity)]
    have : (4000000000 : ℚ) ≤ 1 / 2 * 2 ^ 53 := by norm_num
    linarith
  exact toUInt_some_of_bounds x (by linarith) (by linarith)

/-- On the nominal input range, throttle and steering from 1000 to 2000, both
conversions to `unsigned int` in `mix_channels` are defined. -/
theorem setpoints_defined (t s : Nat) (ht1 : 1000 ≤ t) (ht2 : t ≤ 2000) (hs1 : 1000 ≤ s)
    (hs2 : s ≤ 2000) :
    ∃ l r, left_motor_setpoint t s = some l ∧ right_motor_setpoint t s = some r := by
  have hm := mix_value_abs_le t s ht1 ht2 hs1 hs2
  obtain ⟨hl, hr⟩ := raw_close t s (by unfold UINT_MOD; omega)
  rw [abs_le] at hm
  have a : (1000 : ℚ) ≤ (t : ℚ) := by exact_mod_cast ht1
  have b : (t : ℚ) ≤ 2000 := by exact_mod_cast ht2
  obtain ⟨n, hn⟩ := toUInt_some_of_close _ _ (by linarith) (by linarith) hl
  obtain ⟨k, hk⟩ := toUInt_some_of_close _ _ (by linarith) (by linarith) hr
  refine ⟨normalize_output_pulse_width n, normalize_output_pulse_width k, ?_, ?_⟩
  · unfold left_motor_setpoint
    rw [hn]
    rfl
  · unfold right_motor_setpoint
    rw [hk]
    rfl

/-- On the nominal input range `mix_channels` returns. -/
theorem mix_channels_defined (st : State)
    (ht1 : 1000 ≤ st.throttle_pulse_width) (ht2 : st.throttle_pulse_width ≤ 2000)
    (hs1 : 1000 ≤ st.steering_pulse_width) (hs2 : st.steering_pulse_width ≤ 2000) :
    ∃ m, mix_channels st = some m := by
  obtain ⟨l, r, hl, hr⟩ := setpoints_defined _ _ ht1 ht2 hs1 hs2
  exact ⟨_, mix_channels_of_setpoints st l r hl hr⟩

/-- On the nominal input range `output_signals` returns. -/
theorem output_signals_defined (st : State) (t0 t1 t2 t3 : Nat)
    (ht1 : 1000 ≤ st.throttle_pulse_width) (ht2 : st.throttle_pulse_width ≤ 2000)
    (hs1 : 1000 ≤ st.steering_pulse_width) (hs2 : st.steering_pulse_width ≤ 2000) :
    ∃ f, output_signals st t0 t1 t2 t3 = some f := by
  rcases lt_or_le (usub t0 st.output_pulse_start_micros) OUTPUT_PULSE_INTERVAL_MICROS
    with hlt | hge
  · exact ⟨_, output_signals_within st t0 t1 t2 t3 hlt⟩
  · obtain ⟨m, hm⟩ := mix_channels_defined st ht1 ht2 hs1 hs2
    rw [output_signals_frame st t0 t1 t2 t3 hge, hm]
    exact ⟨_, rfl⟩

/-! ## Claims about the pulse scheduler -/

/-- The two possible outcomes of an `output_signals` call that returns. -/
theorem output_signals_some (s f : State) (t0 t1 t2 t3 : Nat)
    (h : output_signals s t0 t1 t2 t3 = some f) :
    (usub t0 s.output_pulse_start_micros < OUTPUT_PULSE_INTERVAL_MICROS ∧
      f = { s with
        left_motor_pin :=
          output_pulse_width t2 s.output_pulse_start_micros s.left_motor_pulse_width
            s.left_motor_pin
        right_motor_pin :=
          output_pulse_width t3 s.output_pulse_start_micros s.right_motor_pulse_width
            s.right_motor_pin }) ∨
    (usub t0 s.output_pulse_start_micros ≥ OUTPUT_PULSE_INTERVAL_MICROS ∧
      ∃ l r, left_motor_setpoint s.throttle_pulse_width s.steering_pulse_width = some l ∧
        right_motor_setpoint s.throttle_pulse_width s.steering_pulse_width = some r ∧
        f = { s with
          left_motor_pulse_width := ramp l s.left_motor_pulse_width
          right_motor_pulse_width := ramp r s.right_motor_pulse_width
          output_pulse_start_micros := t1
          left_motor_pin :=
            output_pulse_width t2 t1 (ramp l s.left_motor_pulse_width) true
          right_motor_pin :=
            output_pulse_width t3 t1 (ramp r s.right_motor_pulse_width) true }) := by
  rcases lt_or_le (usub t0 s.output_pulse_start_micros) OUTPUT_PULSE_INTERVAL_MICROS
    with hlt | hge
  · left
    rw [output_signals_within s t0 t1 t2 t3 hlt] at h
    exact ⟨hlt, (Option.some.inj h).symm⟩
  · right
    rw [output_signals_frame s t0 t1 t2 t3 hge, Option.map_eq_some'] at h
    obtain ⟨m, hm, hf⟩ := h
    obtain ⟨l, r, hl, hr, rfl⟩ := mix_channels_eq_some s m hm
    exact ⟨hge, l, r, hl, hr, hf.symm⟩

/-- One `ramp` step moves an unsigned value by at most 10. -/
theorem ramp_step_le (s c : Nat) (hs : s < UINT_MOD) (hc : c < UINT_MOD) :
    |(ramp s c : Int) - (c : Int)| ≤ 10 := by
  rw [ramp_eq s c hs hc, abs_le]
  split_ifs <;> omega

/-- Claim C11 (slew limit on the emitted state): for every controller state and
every `output_signals` call that returns, each emitted width after the call
differs from its value before the call by at most 10, whatever the throttle and
steering widths are; when the elapsed time since the frame start is below 20000
the call returns and leaves both emitted widths and `output_pulse_start_micros`
unchanged; and the call returns for all throttle and steering widths in the
nominal input range from 1000 to 2000.  The bound is that of the `ramp` update
alone: it holds for any pair of unsigned setpoints, so it does not depend on the
value that the conversion of a raw sum to `unsigned int` produces. -/
theorem C11_slew_limit (s : State) (t0 t1 t2 t3 : Nat)
    (hl : s.left_motor_pulse_width < UINT_MOD) (hr : s.right_motor_pulse_width < UINT_MOD) :
    (∀ f, output_signals s t0 t1 t2 t3 = some f →
      |(f.left_motor_pulse_width : Int) - (s.left_motor_pulse_width : Int)| ≤ 10 ∧
      |(f.right_motor_pulse_width : Int) - (s.right_motor_pulse_width : Int)| ≤ 10) ∧
    (usub t0 s.output_pulse_start_micros < 20000 →
      ∃ f, output_signals s t0 t1 t2 t3 = some f ∧
        f.left_motor_pulse_width = s.left_motor_pulse_width ∧
        f.right_motor_pulse_width = s.right_motor_pulse_width ∧
        f.output_pulse_start_micros = s.output_pulse_start_micros) ∧
    (1000 ≤ s.throttle_pulse_width → s.throttle_pulse_width ≤ 2000 →
      1000 ≤ s.steering_pulse_width → s.steering_pulse_width ≤ 2000 →
      ∃ f, output_signals s t0 t1 t2 t3 = some f) ∧
    (∀ l r : Nat, l < UINT_MOD → r < UINT_MOD →
      |(ramp l s.left_motor_pulse_width : Int) - (s.left_motor_pulse_width : Int)| ≤ 10 ∧
      |(ramp r s.right_motor_pulse_width : Int) - (s.right_motor_pulse_width : Int)| ≤ 10) := by
  refine ⟨fun f hf => ?_, fun h => ?_, fun a b c d => ?_,
    fun l r h1 h2 => ⟨ramp_step_le l _ h1 hl, ramp_step_le r _ h2 hr⟩⟩
  · rcases output_signals_some s f t0 t1 t2 t3 hf with ⟨_, rfl⟩ | ⟨_, l, r, h1, h2, rfl⟩
    · simp
    · have hl' := left_motor_setpoint_le _ _ l h1
      have hr' := right_motor_setpoint_le _ _ r h2
      exact ⟨ramp_step_le l _ (by unfold UINT_MOD; omega) hl,
        ramp_step_le r _ (by unfold UINT_MOD; omega) hr⟩
  · exact ⟨_, output_signals_within s t0 t1 t2 t3 h, rfl, rfl, rfl⟩
  · exact output_signals_defined s t0 t1 t2 t3 a b c d

/-- Instance of C11 at the initial state with a frame start at time 20000. -/
theorem C11_slew_limit_witness :
    ∃ f, output_signals State.init 20000 20010 20020 20030 = some f ∧
      |(f.left_motor_pulse_width : Int) - (State.init.left_motor_pulse_width : Int)| ≤ 10 :=
  ⟨_, by decide,
    ((C11_slew_limit State.init 20000 20010 20020 20030 (by decide) (by decide)).1
      { State.init with
        output_pulse_start_micros := 20010
        left_motor_pin := true
        right_motor_pin := true } (by decide)).1⟩

/-- The deassert test applied to a pin that was just raised leaves it HIGH
exactly while the elapsed time is below the emitted width. -/
theorem output_pulse_width_raised (now start width : Nat) :
    output_pulse_width now start width true = true ↔ usub now start < width := by
  unfold output_pulse_width
  split_ifs with h
  · simp
    omega
  · simp
    omega

/-- The deassert test never raises a pin. -/
theorem output_pulse_width_low (now start width : Nat) :
    output_pulse_width now start width false = false := by
  unfold output_pulse_width
  split_ifs <;> rfl

/-- The deassert test lowers the pin once the elapsed time reaches the width. -/
theorem output_pulse_width_due (now start width : Nat) (pin : Bool)
    (h : usub now start ≥ width) : output_pulse_width now start width pin = false := by
  unfold output_pulse_width
  rw [if_pos h]

/-- Claim C15 (frame start): when `output_signals` is called with an elapsed time
of at least 20000 it runs `mix_channels` on the old emitted widths (setpoints,
then `ramp`), then records as `output_pulse_start_micros` the clock reading taken
after mixing, then drives both motor pins HIGH, so that after the two deassert
tests each pin is HIGH exactly when its elapsed time since the new frame start is
below its emitted width, whatever its level was before; the call returns on the
nominal input range.  When the elapsed time is below 20000 the call returns and
none of the three happens: both emitted widths and the frame start are
unchanged and no pin goes from LOW to HIGH. -/
theorem C15_frame_start (s : State) (t0 t1 t2 t3 : Nat) :
    (usub t0 s.output_pulse_start_micros ≥ 20000 →
      (∀ f, output_signals s t0 t1 t2 t3 = some f →
        ∃ l r, left_motor_setpoint s.throttle_pulse_width s.steering_pulse_width = some l ∧
          right_motor_setpoint s.throttle_pulse_width s.steering_pulse_width = some r ∧
          mix_channels s = some { s with
            left_motor_pulse_width := ramp l s.left_motor_pulse_width
            right_motor_pulse_width := ramp r s.right_motor_pulse_width } ∧
          f.left_motor_pulse_width = ramp l s.left_motor_pulse_width ∧
          f.right_motor_pulse_width = ramp r s.right_motor_pulse_width ∧
          f.output_pulse_start_micros = t1 ∧
          (f.left_motor_pin = true ↔ usub t2 t1 < f.left_motor_pulse_width) ∧
          (f.right_motor_pin = true ↔ usub t3 t1 < f.right_motor_pulse_width)) ∧
      (1000 ≤ s.throttle_pulse_width → s.throttle_pulse_width ≤ 2000 →
        1000 ≤ s.steering_pulse_width → s.steering_pulse_width ≤ 2000 →
        ∃ f, output_signals s t0 t1 t2 t3 = some f) ∧
      (mix_channels s = none → output_signals s t0 t1 t2 t3 = none)) ∧
    (usub t0 s.output_pulse_start_micros < 20000 →
      ∃ f, output_signals s t0 t1 t2 t3 = some f ∧
        f.left_motor_pulse_width = s.left_motor_pulse_width ∧
        f.right_motor_pulse_width = s.right_motor_pulse_width ∧
        f.output_pulse_start_micros = s.output_pulse_start_micros ∧
        (f.left_motor_pin = true → s.left_motor_pin = true) ∧
        (f.right_motor_pin = true → s.right_motor_pin = true)) := by
  constructor
  · intro hge
    refine ⟨fun f hf => ?_, fun a b c d => output_signals_defined s t0 t1 t2 t3 a b c d,
      fun hn => ?_⟩
    · rcases output_signals_some s f t0 t1 t2 t3 hf with ⟨hlt, _⟩ | ⟨_, l, r, h1, h2, rfl⟩
      · exact absurd hge (Nat.not_le.mpr hlt)
      · exact ⟨l, r, h1, h2, mix_channels_of_setpoints s l r h1 h2, rfl, rfl, rfl,
          output_pulse_width_raised _ _ _, output_pulse_width_raised _ _ _⟩
    · rw [output_signals_frame s t0 t1 t2 t3 hge, hn]
      rfl
  · intro hlt
    refine ⟨_, output_signals_within s t0 t1 t2 t3 hlt, rfl, rfl, rfl, ?_, ?_⟩
    · intro h
      cases hp : s.left_motor_pin
      · simp only [hp, output_pulse_width_low] at h
        exact absurd h (by simp)
      · rfl
    · intro h
      cases hp : s.right_motor_pin
      · simp only [hp, output_pulse_width_low] at h
        exact absurd h (by simp)
      · rfl

/-- Instances of C15 at the initial state: a call at time 20000 starts a frame
and returns; a call at time 5 is within the frame and changes neither the
emitted widths nor the frame start. -/
theorem C15_frame_start_witness :
    (∃ f, output_signals State.init 20000 20010 20020 20030 = some f) ∧
    (∃ f, output_signals State.init 5 6 7 8 = some f ∧
      f.left_motor_pulse_width = State.init.left_motor_pulse_width ∧
      f.right_motor_pulse_width = State.init.right_motor_pulse_width ∧
      f.output_pulse_start_micros = State.init.output_pulse_start_micros ∧
      (f.left_motor_pin = true → State.init.left_motor_pin = true) ∧
      (f.right_motor_pin = true → State.init.right_motor_pin = true)) :=
  ⟨((C15_frame_start State.init 20000 20010 20020 20030).1 (by decide)).2.1
      (by decide) (by decide) (by decide) (by decide),
    (C15_frame_start State.init 5 6 7 8).2 (by decide)⟩

/-- A poll within the frame returns, keeps a LOW pin LOW and leaves the frame
start and the emitted widths unchanged. -/
theorem output_signals_within_facts (s : State) (t0 t1 t2 t3 : Nat)
    (h : usub t0 s.output_pulse_start_micros < OUTPUT_PULSE_INTERVAL_MICROS) :
    ∃ f, output_signals s t0 t1 t2 t3 = some f ∧
      f.output_pulse_start_micros = s.output_pulse_start_micros ∧
      f.left_motor_pulse_width = s.left_motor_pulse_width ∧
      f.right_motor_pulse_width = s.right_motor_pulse_width ∧
      (s.left_motor_pin = false → f.left_motor_pin = false) ∧
      (s.right_motor_pin = false → f.right_motor_pin = false) := by
  refine ⟨_, output_signals_within s t0 t1 t2 t3 h, rfl, rfl, rfl, fun hl => ?_, fun hr => ?_⟩
  · show output_pulse_width _ _ _ s.left_motor_pin = false
    rw [hl]
    exact output_pulse_width_low _ _ _
  · show output_pulse_width _ _ _ s.right_motor_pin = false
    rw [hr]
    exact output_pulse_width_low _ _ _

/-- Polls that stay within the frame keep a lowered pin LOW and leave the frame
start and the emitted widths unchanged. -/
theorem output_signals_seq_within (polls : List (Nat × Nat × Nat × Nat)) (s : State)
    (h : ∀ p ∈ polls, usub p.1 s.output_pulse_start_micros < OUTPUT_PULSE_INTERVAL_MICROS) :
    ∃ g, output_signals_seq s polls = some g ∧
      g.output_pulse_start_micros = s.output_pulse_start_micros ∧
      g.left_motor_pulse_width = s.left_motor_pulse_width ∧
      g.right_motor_pulse_width = s.right_motor_pulse_width ∧
      (s.left_motor_pin = false → g.left_motor_pin = false) ∧
      (s.right_motor_pin = false → g.right_motor_pin = false) := by
  induction polls generalizing s with
  | nil => exact ⟨s, rfl, rfl, rfl, rfl, id, id⟩
  | cons p rest ih =>
    obtain ⟨t0, t1, t2, t3⟩ := p
    have h0 := h (t0, t1, t2, t3) (List.mem_cons_self _ _)
    obtain ⟨f, hf, a1, a2, a3, a4, a5⟩ := output_signals_within_facts s t0 t1 t2 t3 h0
    obtain ⟨g, hg, e1, e2, e3, e4, e5⟩ := ih f
      (fun q hq => by rw [a1]; exact h q (List.mem_cons_of_mem _ hq))
    refine ⟨g, ?_, e1.trans a1, e2.trans a2, e3.trans a3, fun hl => e4 (a4 hl),
      fun hr => e5 (a5 hr)⟩
    unfold output_signals_seq
    rw [hf]
    exact hg

/-- Claim C16 (within-frame deassert): with the two output pins as explicit state,
after every `output_signals` call that returns, each motor pin is LOW if the
elapsed time since the frame start, sampled for that pin, has reached that
channel's emitted width, so a pin is HIGH after a poll only if that poll's elapsed
time is below the emitted width; the level of each pin does not depend on the
other channel's clock sample, emitted width or pin level; and a pin that is LOW
stays LOW on every later poll until the next frame start. -/
theorem C16_within_frame_deassert (s f : State) (t0 t1 t2 t3 : Nat)
    (h : output_signals s t0 t1 t2 t3 = some f) :
    (usub t2 f.output_pulse_start_micros ≥ f.left_motor_pulse_width →
      f.left_motor_pin = false) ∧
    (usub t3 f.output_pulse_start_micros ≥ f.right_motor_pulse_width →
      f.right_motor_pin = false) ∧
    (f.left_motor_pin = true →
      usub t2 f.output_pulse_start_micros < f.left_motor_pulse_width) ∧
    (f.right_motor_pin = true →
      usub t3 f.output_pulse_start_micros < f.right_motor_pulse_width) ∧
    (∀ (w : Nat) (b : Bool) (t3' : Nat),
      (output_signals { s with right_motor_pulse_width := w, right_motor_pin := b }
        t0 t1 t2 t3').map (fun g => g.left_motor_pin) = some f.left_motor_pin) ∧
    (∀ (w : Nat) (b : Bool) (t2' : Nat),
      (output_signals { s with left_motor_pulse_width := w, left_motor_pin := b }
        t0 t1 t2' t3).map (fun g => g.right_motor_pin) = some f.right_motor_pin) ∧
    (usub t0 s.output_pulse_start_micros < 20000 →
      (s.left_motor_pin = false → f.left_motor_pin = false) ∧
      (s.right_motor_pin = false → f.right_motor_pin = false)) ∧
    (∀ polls : List (Nat × Nat × Nat × Nat),
      (∀ p ∈ polls, usub p.1 f.output_pulse_start_micros < 20000) →
      ∃ g, output_signals_seq f polls = some g ∧
        g.output_pulse_start_micros = f.output_pulse_start_micros ∧
        (f.left_motor_pin = false → g.left_motor_pin = false) ∧
        (f.right_motor_pin = false → g.right_motor_pin = false)) := by
  have hlow : ∀ (now start width : Nat) (pin : Bool),
      output_pulse_width now start width pin = true → usub now start < width := by
    intro now start width pin hp
    by_contra hc
    rw [output_pulse_width_due now start width pin (Nat.not_lt.mp hc)] at hp
    exact absurd hp (by simp)
  have hseq : ∀ polls : List (Nat × Nat × Nat × Nat),
      (∀ p ∈ polls, usub p.1 f.output_pulse_start_micros < 20000) →
      ∃ g, output_signals_seq f polls = some g ∧
        g.output_pulse_start_micros = f.output_pulse_start_micros ∧
        (f.left_motor_pin = false → g.left_motor_pin = false) ∧
        (f.right_motor_pin = false → g.right_motor_pin = false) := by
    intro polls hp
    obtain ⟨g, hg, e1, _, _, e4, e5⟩ := output_signals_seq_within polls f hp
    exact ⟨g, hg, e1, e4, e5⟩
  rcases output_signals_some s f t0 t1 t2 t3 h with ⟨hlt, hf⟩ | ⟨hge, l, r, h1, h2, hf⟩
  · refine ⟨?_, ?_, ?_, ?_, ?_, ?_, ?_, hseq⟩
    · intro hd
      rw [hf] at hd ⊢
      exact output_pulse_width_due _ _ _ _ hd
    · intro hd
      rw [hf] at hd ⊢
      exact output_pulse_width_due _ _ _ _ hd
    · intro hp
      rw [hf] at hp ⊢
      exact hlow _ _ _ _ hp
    · intro hp
      rw [hf] at hp ⊢
      exact hlow _ _ _ _ hp
    · intro w b t3'
      rw [output_signals_within
        { s with right_motor_pulse_width := w, right_motor_pin := b } t0 t1 t2 t3' hlt, hf]
      rfl
    · intro w b t2'
      rw [output_signals_within
        { s with left_motor_pulse_width := w, left_motor_pin := b } t0 t1 t2' t3 hlt, hf]
      rfl
    · intro _
      rw [hf]
      constructor
      · intro hl
        show output_pulse_width _ _ _ s.left_motor_pin = false
        rw [hl]
        exact output_pulse_width_low _ _ _
      · intro hr
        show output_pulse_width _ _ _ s.right_motor_pin = false
        rw [hr]
        exact output_pulse_width_low _ _ _
  · refine ⟨?_, ?_, ?_, ?_, ?_, ?_, ?_, hseq⟩
    · intro hd
      rw [hf] at hd ⊢
      exact output_pulse_width_due _ _ _ _ hd
    · intro hd
      rw [hf] at hd ⊢
      exact output_pulse_width_due _ _ _ _ hd
    · intro hp
      rw [hf] at hp ⊢
      exact hlow _ _ _ _ hp
    · intro hp
      rw [hf] at hp ⊢
      exact hlow _ _ _ _ hp
    · intro w b t3'
      rw [output_signals_frame
          { s with right_motor_pulse_width := w, right_motor_pin := b } t0 t1 t2 t3' hge,
        mix_channels_of_setpoints
          { s with right_motor_pulse_width := w, right_motor_pin := b } l r h1 h2, hf]
      rfl
    · intro w b t2'
      rw [output_signals_frame
          { s with left_motor_pulse_width := w, left_motor_pin := b } t0 t1 t2' t3 hge,
        mix_channels_of_setpoints
          { s with left_motor_pulse_width := w, left_motor_pin := b } l r h1 h2, hf]
      rfl
    · intro hlt
      exact absurd hge (Nat.not_le.mpr hlt)

/-- Instance of C16: 1600 microseconds into the first frame both pins, with
emitted width 1500, are LOW. -/
theorem C16_within_frame_deassert_witness :
    ({ State.init with output_pulse_start_micros := 20010 } : State).left_motor_pin = false ∧
    ({ State.init with output_pulse_start_micros := 20010 } : State).right_motor_pin = false :=
  ⟨(C16_within_frame_deassert
      { State.init with
        output_pulse_start_micros := 20010
        left_motor_pin := true
        right_motor_pin := true }
      { State.init with output_pulse_start_micros := 20010 }
      21610 0 21610 21610 (by decide)).1 (by decide),
    (C16_within_frame_deassert
      { State.init with
        output_pulse_start_micros := 20010
        left_motor_pin := true
        right_motor_pin := true }
      { State.init with output_pulse_start_micros := 20010 }
      21610 0 21610 21610 (by decide)).2.1 (by decide)⟩

/-! ## Setpoints outside the operating range -/

/-- Claim C20 (setpoints are not confined to the operating range): throttle 1100
and steering 1900, both inside the operating range, give gain 10, mix value 40,
left setpoint 1140 and right setpoint 1060, which is below the minimum width
1100; whereas every setpoint that `mix_channels` computes is at most 1900, and
the two setpoints exist whenever both raw sums are non-negative and representable
as `unsigned int`. -/
theorem C20_setpoints_not_confined (t s : Nat) :
    (multiplicator 1100 = 10 ∧ (mix_value 1100 1900).val = 40 ∧
      left_motor_setpoint 1100 1900 = some 1140 ∧
      right_motor_setpoint 1100 1900 = some 1060) ∧
    (∃ t' s' r, 1100 ≤ t' ∧ t' ≤ 1900 ∧ 1100 ≤ s' ∧ s' ≤ 1900 ∧
      right_motor_setpoint t' s' = some r ∧ r < MIN_PULSE_WIDTH) ∧
    (∀ l, left_motor_setpoint t s = some l → l ≤ 1900) ∧
    (∀ r, right_motor_setpoint t s = some r → r ≤ 1900) ∧
    (0 ≤ (left_motor_raw t s).val → (left_motor_raw t s).val < 4294967296 →
      0 ≤ (right_motor_raw t s).val → (right_motor_raw t s).val < 4294967296 →
      ∃ l r, left_motor_setpoint t s = some l ∧ right_motor_setpoint t s = some r ∧
        l ≤ 1900 ∧ r ≤ 1900) := by
  have hm : mix_value 1100 1900 = ⟨5629499534213120, -47⟩ := by decide
  refine ⟨⟨by decide, ?_, by decide, by decide⟩,
    ⟨1100, 1900, 1060, by decide, by decide, by decide, by decide, by decide, by decide⟩,
    fun l hl => left_motor_setpoint_le t s l hl,
    fun r hr => right_motor_setpoint_le t s r hr, fun a b c d => ?_⟩
  · rw [hm]
    norm_num [Double.val]
  · obtain ⟨n, hn⟩ := toUInt_some_of_bounds _ a b
    obtain ⟨k, hk⟩ := toUInt_some_of_bounds _ c d
    have hl : left_motor_setpoint t s = some (normalize_output_pulse_width n) := by
      unfold left_motor_setpoint
      rw [hn]
      rfl
    have hr : right_motor_setpoint t s = some (normalize_output_pulse_width k) := by
      unfold right_motor_setpoint
      rw [hk]
      rfl
    exact ⟨_, _, hl, hr, left_motor_setpoint_le t s _ hl, right_motor_setpoint_le t s _ hr⟩

/-- Instance of C20 at throttle 1100 and steering 1900. -/
theorem C20_setpoints_not_confined_witness :
    1140 ≤ MAX_PULSE_WIDTH ∧ 1060 ≤ MAX_PULSE_WIDTH :=
  ⟨(C20_setpoints_not_confined 1100 1900).2.2.1 1140 (by decide),
    (C20_setpoints_not_confined 1100 1900).2.2.2.1 1060 (by decide)⟩

end TankController
